import Mathlib

/-!
Verification of the `CircularList` container (src/CircularList.h): a circular
doubly-linked list with STL-like semantics.  The C++ heap is modelled as a
per-list arena `nodes : List (Node T)`; a `Node*` pointer is an index into
that arena (`delete` merely unlinks: freed cells stay in the arena as
unreachable garbage).  `head == nullptr` is `head = none`.  Every throwing
operation returns `Except CppErr`; the two C++ exception types
(`std::out_of_range`, `std::invalid_argument`, `std::runtime_error`) and the
distinct throw sites are kept apart so that the error taxonomy of the spec is
visible.  Each definition is a direct transcription of the corresponding
member function of `CircularList<T>`.
-/

namespace CircVerify

/-- A node of the ring: `struct Node { T data; Node* next; Node* prev; }`.
The constructor `Node(value)` makes a self-linked solitary node, which is
reproduced at each allocation site. -/
structure Node (T : Type) where
  data : T
  next : Nat
  prev : Nat
deriving DecidableEq

instance {T : Type} [Inhabited T] : Inhabited (Node T) := ⟨⟨default, 0, 0⟩⟩

/-- `class CircularList`: arena of nodes (the heap cells owned by this list),
`Node* head` as an optional arena index, and `size_t count`. -/
structure CircularList (T : Type) where
  nodes : List (Node T)
  head : Option Nat
  count : Nat
deriving DecidableEq

/-- The throw sites of CircularList.h, one constructor per distinct message. -/
inductive ErrMsg where
  | popBackEmpty
  | popFrontEmpty
  | eraseEmpty
  | eraseInvalidIter
  | frontEmpty
  | backEmpty
  | derefEnd
  | incEnd
  | decNoList
  | invalidSourceHead
  | copyCorrupt
  | copyCountMismatch
deriving DecidableEq

/-- The C++ exception kinds thrown by CircularList.h. -/
inductive CppErr where
  | outOfRange (msg : ErrMsg)
  | invalidArgument (msg : ErrMsg)
  | runtimeErr (msg : ErrMsg)
deriving DecidableEq

/-- Bidirectional iterator: `Node* node` (none = end sentinel) and the
`Node* head` captured at construction time. -/
structure Iter where
  node : Option Nat
  head : Option Nat
deriving DecidableEq

variable {T : Type} [Inhabited T]

/-- Dereference an arena index (reading a `Node*`).  Out-of-arena reads give
the default node; they never happen on well-formed lists. -/
def ndL (ns : List (Node T)) (i : Nat) : Node T := ns.getD i default

/-- Read a node of a list's own ring. -/
def nd (l : CircularList T) (i : Nat) : Node T := ndL l.nodes i

/-- The head index of a list known to be non-empty (`head` dereferenced). -/
def hd (l : CircularList T) : Nat := l.head.getD 0

/-- `p->next = j` for the pointer `p` = index `i`. -/
def setNext (ns : List (Node T)) (i j : Nat) : List (Node T) :=
  ns.set i { ndL ns i with next := j }

/-- `p->prev = j` for the pointer `p` = index `i`. -/
def setPrev (ns : List (Node T)) (i j : Nat) : List (Node T) :=
  ns.set i { ndL ns i with prev := j }

/-- The default constructor: `head(nullptr), count(0)`. -/
def emptyList : CircularList T := ⟨[], none, 0⟩

/-- `iterator::operator==`: compares only the `node` pointers. -/
def iterEq (a b : Iter) : Bool := a.node == b.node

/-- `iterator::operator!=`. -/
def iterNe (a b : Iter) : Bool := a.node != b.node

/-- `begin()`: `iterator(head, head)`. -/
def beginIt (l : CircularList T) : Iter := ⟨l.head, l.head⟩

/-- `end()`: `iterator(nullptr, head)`. -/
def endIt (l : CircularList T) : Iter := ⟨none, l.head⟩

/-- `size()`. -/
def size (l : CircularList T) : Nat := l.count

/-- `empty()`. -/
def isEmpty (l : CircularList T) : Bool := l.count == 0

/-- `iterator::operator*`: throws `std::out_of_range` on the end sentinel. -/
def deref (l : CircularList T) (it : Iter) : Except CppErr T :=
  match it.node with
  | none => .error (.outOfRange .derefEnd)
  | some n => .ok (nd l n).data

/-- `iterator::operator++`: `node = node->next`, throwing on the sentinel. -/
def iterInc (l : CircularList T) (it : Iter) : Except CppErr Iter :=
  match it.node with
  | none => .error (.outOfRange .incEnd)
  | some n => .ok ⟨some (nd l n).next, it.head⟩

/-- `iterator::operator--`: from the sentinel move to `head->prev`, else to
`node->prev`; throws when the iterator has no list (`head == nullptr`). -/
def iterDec (l : CircularList T) (it : Iter) : Except CppErr Iter :=
  match it.head with
  | none => .error (.outOfRange .decNoList)
  | some h =>
    match it.node with
    | none => .ok ⟨some (nd l h).prev, it.head⟩
    | some n => .ok ⟨some (nd l n).prev, it.head⟩

/-- `front()`. -/
def front (l : CircularList T) : Except CppErr T :=
  if l.count = 0 then .error (.outOfRange .frontEmpty)
  else .ok (nd l (hd l)).data

/-- `back()`: `head->prev->data`. -/
def back (l : CircularList T) : Except CppErr T :=
  if l.count = 0 then .error (.outOfRange .backEmpty)
  else .ok (nd l ((nd l (hd l)).prev)).data

/-- `push_back(value)`: allocate a self-linked node; if the list was empty it
becomes the head, otherwise it is spliced in right before head
(`tail->next = node; node->prev = tail; node->next = head; head->prev = node`). -/
def push_back (l : CircularList T) (value : T) : CircularList T :=
  let i := l.nodes.length
  let ns := l.nodes ++ [⟨value, i, i⟩]
  match l.head with
  | none => ⟨ns, some i, l.count + 1⟩
  | some h =>
    let tail := (ndL l.nodes h).prev
    let ns1 := setNext ns tail i
    let ns2 := setPrev ns1 i tail
    let ns3 := setNext ns2 i h
    let ns4 := setPrev ns3 h i
    ⟨ns4, some h, l.count + 1⟩

/-- `push_front(value)`: `push_back(value); head = head->prev;`. -/
def push_front (l : CircularList T) (value : T) : CircularList T :=
  let l1 := push_back l value
  { l1 with head := l1.head.map fun h => (ndL l1.nodes h).prev }

/-- `pop_back()`: remove `head->prev`; throws on an empty list. -/
def pop_back (l : CircularList T) : Except CppErr (CircularList T) :=
  if l.count = 0 then .error (.outOfRange .popBackEmpty)
  else
    let h := hd l
    let tail := (nd l h).prev
    if tail = h then
      .ok ⟨l.nodes, none, l.count - 1⟩
    else
      let ns1 := setNext l.nodes (nd l tail).prev h
      let ns2 := setPrev ns1 h (nd l tail).prev
      .ok ⟨ns2, some h, l.count - 1⟩

/-- `pop_front()`: remove the head node, reassigning head to `head->next`;
throws on an empty list. -/
def pop_front (l : CircularList T) : Except CppErr (CircularList T) :=
  if l.count = 0 then .error (.outOfRange .popFrontEmpty)
  else
    let h := hd l
    if (nd l h).next = h then
      .ok ⟨l.nodes, none, l.count - 1⟩
    else
      let p := (nd l h).prev
      let n := (nd l h).next
      let ns1 := setNext l.nodes p n
      let ns2 := setPrev ns1 n p
      .ok ⟨ns2, some n, l.count - 1⟩

/-- `insert(pos, value)`: when `pos.node == nullptr || head == nullptr`, do
`push_back` and return `iterator(head->prev, head)`; otherwise splice a new
node before `pos`, reassigning head when the insertion point was head. -/
def insert (l : CircularList T) (pos : Iter) (value : T) :
    CircularList T × Iter :=
  match pos.node, l.head with
  | some cur, some h =>
    let prev := (nd l cur).prev
    let i := l.nodes.length
    let ns0 := l.nodes ++ [⟨value, i, i⟩]
    let ns1 := setNext ns0 i cur
    let ns2 := setPrev ns1 i prev
    let ns3 := setNext ns2 prev i
    let ns4 := setPrev ns3 cur i
    let newHead : Option Nat := if cur = h then some i else some h
    (⟨ns4, newHead, l.count + 1⟩, ⟨some i, newHead⟩)
  | _, _ =>
    let l1 := push_back l value
    (l1, ⟨l1.head.map fun h => (ndL l1.nodes h).prev, l1.head⟩)

/-- `erase(pos)`: empty check first (`std::out_of_range`), then sentinel check
(`std::invalid_argument`); the returned iterator is built before unlinking,
from the pre-erase head. -/
def erase (l : CircularList T) (pos : Iter) :
    Except CppErr (CircularList T × Iter) :=
  if l.count = 0 then .error (.outOfRange .eraseEmpty)
  else
    match pos.node with
    | none => .error (.invalidArgument .eraseInvalidIter)
    | some node =>
      let h := hd l
      let nxt := (nd l node).next
      let it : Iter := ⟨if nxt = h then none else some nxt, some h⟩
      if nxt = node then
        .ok (⟨l.nodes, none, l.count - 1⟩, it)
      else
        let p := (nd l node).prev
        let ns1 := setNext l.nodes p nxt
        let ns2 := setPrev ns1 nxt p
        let newHead : Option Nat := if node = h then some nxt else some h
        .ok (⟨ns2, newHead, l.count - 1⟩, it)

/-- One round of `clear()`: `while (!empty()) pop_front();`, fuelled by the
count, which `pop_front` decrements by exactly one on every success. -/
def clearGo : Nat → CircularList T → CircularList T
  | 0, l => l
  | k + 1, l =>
    if l.count = 0 then l
    else
      match pop_front l with
      | .ok l1 => clearGo k l1
      | .error _ => l

/-- `clear()`. -/
def clear (l : CircularList T) : CircularList T := clearGo l.count l

/-- Push every element of `xs` in order (`push_back` repeatedly). -/
def pushList (l : CircularList T) (xs : List T) : CircularList T :=
  xs.foldl push_back l

/-- `assign(n, value)`: `clear()` then `n` times `push_back(value)`. -/
def assign (l : CircularList T) (n : Nat) (value : T) : CircularList T :=
  pushList (clear l) (List.replicate n value)

/-- `swap(other)`: exchanges `head` and `count`; in the arena model each list
owns its ring storage, so exchanging the head pointers exchanges the rings. -/
def swap (a b : CircularList T) : CircularList T × CircularList T := (b, a)

/-- Move construction: steal `head`/`count`, null out the source.  The source
keeps its arena cells but they are unreachable (head absent, count zero). -/
def moveCtor (other : CircularList T) : CircularList T × CircularList T :=
  (⟨other.nodes, other.head, other.count⟩, ⟨other.nodes, none, 0⟩)

/-- Move assignment along the `this != &other` path: `clear()` the target
(dropping its ring) then steal the source's ring. -/
def moveAssign (dst src : CircularList T) :
    CircularList T × CircularList T :=
  (⟨src.nodes, src.head, src.count⟩, ⟨src.nodes, none, 0⟩)

/-- Move assignment along the `this == &other` path: the guard skips the whole
body, so the object is returned unchanged. -/
def moveAssignSelf (l : CircularList T) : CircularList T := l

/-- The do-while loop of the copy constructor, fuelled (the defensive
`elements_copied > other.count` check bounds it by `other.count` rounds).
The per-node null-link checks of the source have no arena counterpart
(indices are never null) and are omitted. -/
def copyGo (other : CircularList T) :
    Nat → Nat → Nat → CircularList T → Except CppErr (CircularList T)
  | fuel, cur, copied, acc =>
    let acc1 := push_back acc (nd other cur).data
    let cur1 := (nd other cur).next
    let copied1 := copied + 1
    if other.count < copied1 then .error (.runtimeErr .copyCorrupt)
    else if cur1 = hd other then
      if copied1 ≠ other.count then .error (.runtimeErr .copyCountMismatch)
      else .ok acc1
    else
      match fuel with
      | 0 => .error (.runtimeErr .copyCorrupt)
      | fuel1 + 1 => copyGo other fuel1 cur1 copied1 acc1

/-- The copy constructor: empty source gives an empty list, otherwise the ring
is traversed from head with the defensive count checks. -/
def copyCtor (other : CircularList T) : Except CppErr (CircularList T) :=
  if other.count = 0 then .ok ⟨[], none, 0⟩
  else
    match other.head with
    | none => .error (.runtimeErr .invalidSourceHead)
    | some h => copyGo other other.count h 0 ⟨[], none, 0⟩

/-- The loop of `operator==`: `while (it1 != end() && elements_compared <
size())`, with `k` the number of comparisons still allowed
(`size() - elements_compared`); every exit returns
`elements_compared == size()`, i.e. whether `k` reached zero. -/
def eqGo [DecidableEq T] (a b : CircularList T) :
    Nat → Iter → Iter → Except CppErr Bool
  | 0, _, _ => .ok true
  | k + 1, it1, it2 =>
    if it1.node = none then .ok false
    else do
      let v1 ← deref a it1
      let v2 ← deref b it2
      if v1 ≠ v2 then pure false
      else do
        let it1n ← iterInc a it1
        let it2n ← iterInc b it2
        eqGo a b k it1n it2n

/-- `operator==`: size check, empty shortcut, then the elementwise loop over
`begin()` of both lists. -/
def listEq [DecidableEq T] (a b : CircularList T) : Except CppErr Bool :=
  if a.count ≠ b.count then .ok false
  else if a.count = 0 then .ok true
  else eqGo a b a.count (beginIt a) (beginIt b)

/-- `operator!=`: `!(*this == other)`. -/
def listNe [DecidableEq T] (a b : CircularList T) : Except CppErr Bool :=
  (listEq a b).map fun r => !r

/-- The loop of `operator<`: `while (it1 != end() && it2 != other.end() &&
elements_compared < min(size(), other.size()))`; every exit returns
`size() < other.size()`. -/
def ltGo [LinearOrder T] (a b : CircularList T) :
    Nat → Iter → Iter → Except CppErr Bool
  | 0, _, _ => .ok (decide (a.count < b.count))
  | k + 1, it1, it2 =>
    if it1.node = none then .ok (decide (a.count < b.count))
    else if it2.node = none then .ok (decide (a.count < b.count))
    else do
      let v1 ← deref a it1
      let v2 ← deref b it2
      if v1 < v2 then pure true
      else if v2 < v1 then pure false
      else do
        let it1n ← iterInc a it1
        let it2n ← iterInc b it2
        ltGo a b k it1n it2n

/-- `operator<`: the three emptiness shortcuts, then the lexicographic loop. -/
def listLt [LinearOrder T] (a b : CircularList T) : Except CppErr Bool :=
  if a.count = 0 ∧ b.count = 0 then .ok false
  else if a.count = 0 then .ok true
  else if b.count = 0 then .ok false
  else ltGo a b (min a.count b.count) (beginIt a) (beginIt b)

/-- `operator>`: `other < *this`. -/
def listGt [LinearOrder T] (a b : CircularList T) : Except CppErr Bool :=
  listLt b a

/-- `operator<=`: `!(other < *this)`. -/
def listLe [LinearOrder T] (a b : CircularList T) : Except CppErr Bool :=
  (listLt b a).map fun r => !r

/-- `operator>=`: `!(*this < other)`. -/
def listGe [LinearOrder T] (a b : CircularList T) : Except CppErr Bool :=
  (listLt a b).map fun r => !r

/-- Follow one `next` link. -/
def step (l : CircularList T) (i : Nat) : Nat := (nd l i).next

/-- The indices visited by `k` successive `next` steps starting at `i`. -/
def walk (l : CircularList T) (i : Nat) : Nat → List Nat
  | 0 => []
  | k + 1 => i :: walk l (step l i) k

/-- The ring as seen from head: `count` indices obtained by following `next`. -/
def ringIdx (l : CircularList T) : List Nat :=
  match l.head with
  | none => []
  | some h => walk l h l.count

/-- The abstract contents of the list in front-to-back iteration order. -/
def toList (l : CircularList T) : List T :=
  (ringIdx l).map fun i => (nd l i).data

/-- Iterated `operator++` (m applications). -/
def iterIncN (l : CircularList T) : Nat → Iter → Except CppErr Iter
  | 0, it => .ok it
  | k + 1, it => do iterIncN l k (← iterInc l it)

/-- Adjacency of two arena indices in ring order: `a`'s next is `b` and `b`'s
prev is `a`. -/
@[reducible] def NextLink (ns : List (Node T)) (a b : Nat) : Prop :=
  (ndL ns a).next = b ∧ (ndL ns b).prev = a

instance (ns : List (Node T)) : DecidableRel (NextLink ns) := fun _ _ =>
  instDecidableAnd

/-- The index list `r` is a well-formed doubly-linked ring inside the arena
`ns`: bounded, duplicate-free, chained by `next`/`prev`, and wrapping from the
last index back to the first. -/
@[reducible] def IsRing (ns : List (Node T)) (r : List Nat) : Prop :=
  (∀ i ∈ r, i < ns.length) ∧ r.Nodup ∧
    List.Chain' (NextLink ns) r ∧
    (r = [] ∨ NextLink ns (r.getLastD 0) (r.getD 0 0))

/-- Representation predicate: the list `l` is the ring `r` (first index is the
head, `count` is the length). -/
@[reducible] def Ring (l : CircularList T) (r : List Nat) : Prop :=
  l.head = r.head? ∧ l.count = r.length ∧ IsRing l.nodes r

/-- There exists some ring representing `l`. -/
def WF (l : CircularList T) : Prop := ∃ r, Ring l r

/-- The ring invariants of the specification, section 3: head absent exactly
when the count is zero; following `next` from head `count` times returns to
head; `head->prev` is the logical back node (the last one in iteration
order); the ring visits exactly `count` distinct nodes. -/
def Invariants (l : CircularList T) : Prop :=
  (l.count = 0 ↔ l.head = none) ∧
    (∀ h, l.head = some h →
      (step l)^[l.count] h = h ∧ (nd l h).prev = (ringIdx l).getLastD 0) ∧
    (ringIdx l).Nodup ∧ (ringIdx l).length = l.count

/-- Build a concrete list by pushing the values in order onto the empty list. -/
def ofL (xs : List T) : CircularList T := pushList emptyList xs

/-- Lexicographic strict order on value sequences, as the specification words
it: compare corresponding elements front to back; on a tie the shorter
sequence orders first. -/
def lexLt [LinearOrder T] : List T → List T → Bool
  | _, [] => false
  | [], _ :: _ => true
  | x :: xs, y :: ys =>
    if x < y then true else if y < x then false else lexLt xs ys

/-- Pointwise description of the arena after splicing a fresh node (allocated
at index `ns.length`) in front of `cur`, whose ring predecessor is `prv`.
Both `push_back` (with `cur` the head) and `insert` produce this arena. -/
def spliceDesc (ns : List (Node T)) (cur prv : Nat) (v : T) (k : Nat) :
    Node T :=
  if k = ns.length then ⟨v, cur, prv⟩
  else if k = cur ∧ k = prv then
    { ndL ns k with next := ns.length, prev := ns.length }
  else if k = cur then { ndL ns k with prev := ns.length }
  else if k = prv then { ndL ns k with next := ns.length }
  else ndL ns k

/-- Pointwise description of the arena after unlinking a node whose ring
neighbours are `p` (previous) and `n` (next): produced by `pop_front`,
`pop_back` and `erase`. -/
def unspliceDesc (ns : List (Node T)) (p n : Nat) (k : Nat) : Node T :=
  if k = p ∧ k = n then { ndL ns k with next := n, prev := p }
  else if k = p then { ndL ns k with next := n }
  else if k = n then { ndL ns k with prev := p }
  else ndL ns k

theorem ndL_set (ns : List (Node T)) (i : Nat) (x : Node T) (k : Nat) :
    ndL (ns.set i x) k = if k = i ∧ i < ns.length then x else ndL ns k := by
  by_cases h1 : k = i
  · by_cases h2 : i < ns.length
    · subst h1
      simp only [ndL, List.getD_eq_getElem?_getD,
        List.getElem?_set_eq_of_lt x h2]
      simp [h2]
    · rw [List.set_eq_of_length_le (Nat.le_of_not_lt h2)]
      simp [h1, h2]
  · simp only [h1, false_and, if_false, ndL, List.getD_eq_getElem?_getD,
      List.getElem?_set_ne fun hik => h1 hik.symm]

theorem length_setNext (ns : List (Node T)) (i j : Nat) :
    (setNext ns i j).length = ns.length := by
  simp [setNext]

theorem length_setPrev (ns : List (Node T)) (i j : Nat) :
    (setPrev ns i j).length = ns.length := by
  simp [setPrev]

theorem ndL_setNext (ns : List (Node T)) (i j k : Nat) :
    ndL (setNext ns i j) k =
      if k = i ∧ i < ns.length then { ndL ns i with next := j }
      else ndL ns k := by
  rw [setNext, ndL_set]

theorem ndL_setPrev (ns : List (Node T)) (i j k : Nat) :
    ndL (setPrev ns i j) k =
      if k = i ∧ i < ns.length then { ndL ns i with prev := j }
      else ndL ns k := by
  rw [setPrev, ndL_set]

theorem ndL_append_lt (ns : List (Node T)) (x : Node T) (k : Nat)
    (h : k < ns.length) : ndL (ns ++ [x]) k = ndL ns k := by
  simp [ndL, List.getD_eq_getElem?_getD, List.getElem?_append, h]

theorem ndL_append_self (ns : List (Node T)) (x : Node T) :
    ndL (ns ++ [x]) ns.length = x := by
  simp only [ndL, List.getD_eq_getElem?_getD, List.getElem?_concat_length,
    Option.getD_some]

theorem ndL_append_ne (ns : List (Node T)) (x : Node T) (k : Nat)
    (h : k ≠ ns.length) : ndL (ns ++ [x]) k = ndL ns k := by
  rcases Nat.lt_or_ge k ns.length with hlt | hge
  · exact ndL_append_lt ns x k hlt
  · have h1 : ns.length < k := Nat.lt_of_le_of_ne hge fun he => h he.symm
    simp only [ndL, List.getD_eq_getElem?_getD]
    rw [List.getElem?_eq_none (by simpa using h1),
      List.getElem?_eq_none (Nat.le_of_lt h1)]

theorem ndL_unspliceWrites (ns : List (Node T)) (p n : Nat)
    (hp : p < ns.length) (hn : n < ns.length) (k : Nat) :
    ndL (setPrev (setNext ns p n) n p) k = unspliceDesc ns p n k := by
  by_cases h1 : k = p <;> by_cases h2 : k = n <;>
    simp_all [unspliceDesc, ndL_setPrev, ndL_setNext, length_setNext]

theorem ndL_insertWrites (ns : List (Node T)) (cur prv : Nat) (v : T)
    (hc : cur < ns.length) (hp : prv < ns.length) (k : Nat) :
    ndL (setPrev (setNext (setPrev (setNext
        (ns ++ [⟨v, ns.length, ns.length⟩]) ns.length cur)
        ns.length prv) prv ns.length) cur ns.length) k
      = spliceDesc ns cur prv v k := by
  have hc1 : cur ≠ ns.length := Nat.ne_of_lt hc
  have hp1 : prv ≠ ns.length := Nat.ne_of_lt hp
  have hc2 : cur < ns.length + 1 := Nat.lt_succ_of_lt hc
  have hp2 : prv < ns.length + 1 := Nat.lt_succ_of_lt hp
  by_cases h1 : k = ns.length <;> by_cases h2 : k = cur <;> by_cases h3 : k = prv <;>
    simp_all [spliceDesc, ndL_setPrev, ndL_setNext, length_setPrev,
      length_setNext, ndL_append_self, ndL_append_ne]

theorem ndL_pushWrites (ns : List (Node T)) (cur prv : Nat) (v : T)
    (hc : cur < ns.length) (hp : prv < ns.length) (k : Nat) :
    ndL (setPrev (setNext (setPrev (setNext
        (ns ++ [⟨v, ns.length, ns.length⟩]) prv ns.length)
        ns.length prv) ns.length cur) cur ns.length) k
      = spliceDesc ns cur prv v k := by
  have hc1 : cur ≠ ns.length := Nat.ne_of_lt hc
  have hp1 : prv ≠ ns.length := Nat.ne_of_lt hp
  have hc2 : cur < ns.length + 1 := Nat.lt_succ_of_lt hc
  have hp2 : prv < ns.length + 1 := Nat.lt_succ_of_lt hp
  by_cases h1 : k = ns.length <;> by_cases h2 : k = cur <;> by_cases h3 : k = prv <;>
    simp_all [spliceDesc, ndL_setPrev, ndL_setNext, length_setPrev,
      length_setNext, ndL_append_self, ndL_append_ne]

theorem spliceDesc_next (ns : List (Node T)) (cur prv : Nat) (v : T) (k : Nat)
    (hc : cur < ns.length) :
    (spliceDesc ns cur prv v k).next =
      if k = ns.length then cur
      else if k = prv then ns.length
      else (ndL ns k).next := by
  unfold spliceDesc
  by_cases h1 : k = ns.length <;> by_cases h2 : k = cur <;> by_cases h3 : k = prv <;>
    simp_all

theorem spliceDesc_prev (ns : List (Node T)) (cur prv : Nat) (v : T) (k : Nat)
    (hp : prv < ns.length) :
    (spliceDesc ns cur prv v k).prev =
      if k = ns.length then prv
      else if k = cur then ns.length
      else (ndL ns k).prev := by
  unfold spliceDesc
  by_cases h1 : k = ns.length <;> by_cases h2 : k = cur <;> by_cases h3 : k = prv <;>
    simp_all

theorem spliceDesc_data (ns : List (Node T)) (cur prv : Nat) (v : T) (k : Nat) :
    (spliceDesc ns cur prv v k).data =
      if k = ns.length then v else (ndL ns k).data := by
  unfold spliceDesc
  by_cases h1 : k = ns.length <;> by_cases h2 : k = cur <;> by_cases h3 : k = prv <;>
    simp_all

theorem unspliceDesc_next (ns : List (Node T)) (p n : Nat) (k : Nat) :
    (unspliceDesc ns p n k).next = if k = p then n else (ndL ns k).next := by
  unfold unspliceDesc
  by_cases h1 : k = p <;> by_cases h2 : k = n <;> simp_all

theorem unspliceDesc_prev (ns : List (Node T)) (p n : Nat) (k : Nat) :
    (unspliceDesc ns p n k).prev = if k = n then p else (ndL ns k).prev := by
  unfold unspliceDesc
  by_cases h1 : k = p <;> by_cases h2 : k = n <;> simp_all

theorem unspliceDesc_data (ns : List (Node T)) (p n : Nat) (k : Nat) :
    (unspliceDesc ns p n k).data = (ndL ns k).data := by
  unfold unspliceDesc
  by_cases h1 : k = p <;> by_cases h2 : k = n <;> simp_all

theorem getD_get (r : List Nat) (k : Nat) (h : k < r.length) :
    r.getD k 0 = r.get ⟨k, h⟩ := by
  rw [List.getD_eq_getElem?_getD, List.getElem?_eq_getElem h]
  rfl

theorem getLastD_eq_getD (r : List Nat) :
    r.getLastD 0 = r.getD (r.length - 1) 0 := by
  rw [List.getLastD_eq_getLast?, List.getLast?_eq_getElem?,
    List.getD_eq_getElem?_getD]

theorem getLastD_ne_nil {r : List Nat} (h : r ≠ []) (d1 d2 : Nat) :
    r.getLastD d1 = r.getLastD d2 := by
  rw [List.getLastD_eq_getLast?, List.getLastD_eq_getLast?]
  cases hq : r.getLast? with
  | none => exact absurd (List.getLast?_eq_none_iff.mp hq) h
  | some x => rfl

theorem getLastD_mem {r : List Nat} (h : r ≠ []) (d : Nat) :
    r.getLastD d ∈ r := by
  rw [List.getLastD_eq_getLast?]
  cases hq : r.getLast? with
  | none => exact absurd (List.getLast?_eq_none_iff.mp hq) h
  | some x => simpa using List.mem_of_mem_getLast? hq

/-- Every adjacent pair of a duplicate-free chain consists of a member that is
not the last element followed by a member that is not the first. -/
theorem chain'_strengthen {R : Nat → Nat → Prop} {r : List Nat}
    (hnd : r.Nodup) (hc : List.Chain' R r) :
    List.Chain' (fun x y => R x y ∧ x ∈ r ∧ y ∈ r ∧
      x ≠ r.getLastD 0 ∧ y ≠ r.getD 0 0) r := by
  rw [List.chain'_iff_get] at hc ⊢
  intro i hi
  have h2 : i + 1 < r.length := by omega
  have h0 : 0 < r.length := by omega
  refine ⟨hc i hi, List.get_mem r i (by omega), List.get_mem r (i + 1) h2,
    ?_, ?_⟩
  · rw [getLastD_eq_getD, getD_get r _ (by omega)]
    intro he
    have h3 := hnd.get_inj_iff.mp he
    have h4 : i = r.length - 1 := congrArg Fin.val h3
    omega
  · rw [getD_get r 0 h0]
    intro he
    have h3 := hnd.get_inj_iff.mp he
    have h4 : i + 1 = 0 := congrArg Fin.val h3
    omega

theorem isRing_rot_one {ns : List (Node T)} {r : List Nat}
    (hr : IsRing ns r) : IsRing ns (r.rotate 1) := by
  obtain ⟨hb, hnd, hc, hw⟩ := hr
  refine ⟨fun i hi => hb i (List.mem_rotate.mp hi), List.nodup_rotate.mpr hnd,
    ?_, ?_⟩
  · match r, hc, hw with
    | [], _, _ => simp
    | [a], _, _ => simp
    | a :: b :: t, hc, hw =>
      rcases hw with h | hw
      · cases h
      rw [show (1 : Nat) = 0 + 1 from rfl, List.rotate_cons_succ,
        List.rotate_zero]
      refine List.chain'_append.mpr ⟨hc.tail, List.chain'_singleton a,
        fun x hx y hy => ?_⟩
      have hy1 : y = a := by simp at hy; omega
      have hx' : (b :: t).getLast? = some x := hx
      have hx1 : (b :: t).getLastD 0 = x := by
        rw [List.getLastD_eq_getLast?, hx']
        rfl
      rw [List.getLastD_cons, getLastD_ne_nil (List.cons_ne_nil b t) a 0,
        hx1] at hw
      rw [hy1]
      exact hw
  · match r, hc, hw with
    | [], _, _ => simp
    | [a], _, hw => simpa using hw
    | a :: b :: t, hc, hw =>
      rcases hw with h | hw
      · cases h
      rw [show (1 : Nat) = 0 + 1 from rfl, List.rotate_cons_succ,
        List.rotate_zero]
      refine Or.inr ?_
      have h1 : ((b :: t) ++ [a]).getLastD 0 = a := by
        rw [List.getLastD_eq_getLast?, List.getLast?_concat]
        rfl
      have h2 : ((b :: t) ++ [a]).getD 0 0 = b := rfl
      rw [h1, h2]
      exact (List.chain'_cons.mp hc).1

theorem isRing_rot {ns : List (Node T)} {r : List Nat}
    (hr : IsRing ns r) (n : Nat) : IsRing ns (r.rotate n) := by
  induction n with
  | zero => simpa using hr
  | succ k ih =>
    have h1 := isRing_rot_one ih
    rwa [List.rotate_rotate] at h1

/-- Unlinking the first node of a ring of at least two nodes (the writes
`node->prev->next = node->next; node->next->prev = node->prev`) yields the
ring without it. -/
theorem isRing_unsplice {ns ns' : List (Node T)} {a b : Nat} {t : List Nat}
    (hr : IsRing ns (a :: b :: t))
    (hlen : ns'.length = ns.length)
    (hdesc : ∀ k, ndL ns' k =
      unspliceDesc ns ((ndL ns a).prev) ((ndL ns a).next) k) :
    IsRing ns' (b :: t) := by
  obtain ⟨hb, hnd, hc, hw⟩ := hr
  rcases hw with h | hw
  · cases h
  have hnext : ∀ k, (ndL ns' k).next =
      if k = (ndL ns a).prev then (ndL ns a).next else (ndL ns k).next :=
    fun k => by rw [hdesc k, unspliceDesc_next]
  have hprev : ∀ k, (ndL ns' k).prev =
      if k = (ndL ns a).next then (ndL ns a).prev else (ndL ns k).prev :=
    fun k => by rw [hdesc k, unspliceDesc_prev]
  have hab : (ndL ns a).next = b := (List.chain'_cons.mp hc).1.1
  have hpa : (ndL ns a).prev = (b :: t).getLastD 0 := by
    have h0 : (a :: b :: t).getLastD 0 = (b :: t).getLastD 0 := by
      rw [List.getLastD_cons, getLastD_ne_nil (List.cons_ne_nil b t) a 0]
    rw [← h0]
    exact hw.2
  have hndt : (b :: t).Nodup := (List.nodup_cons.mp hnd).2
  refine ⟨?_, hndt, ?_, ?_⟩
  · intro i hi
    rw [hlen]
    exact hb i (List.mem_cons_of_mem a hi)
  · refine (chain'_strengthen hndt hc.tail).imp ?_
    rintro x y ⟨⟨h1, h2⟩, hxm, hym, hxl, hyh⟩
    constructor
    · rw [hnext x, hpa, if_neg hxl]
      exact h1
    · rw [hprev y, hab, if_neg ?_]
      · exact h2
      · exact hyh
  · refine Or.inr ⟨?_, ?_⟩
    · rw [hnext _, hpa, if_pos rfl, hab]
      rfl
    · have h0 : (b :: t).getD 0 0 = b := rfl
      rw [h0, hprev b, hab, if_pos rfl, hpa]

/-- Splicing a fresh node (index `ns.length`) in front of the first node of a
ring yields the ring with the fresh index prepended. -/
theorem isRing_splice {ns ns' : List (Node T)} {cur : Nat} {rest : List Nat}
    {v : T} (hr : IsRing ns (cur :: rest))
    (hlen : ns'.length = ns.length + 1)
    (hdesc : ∀ k, ndL ns' k = spliceDesc ns cur ((ndL ns cur).prev) v k) :
    IsRing ns' (ns.length :: cur :: rest) := by
  obtain ⟨hb, hnd, hc, hw⟩ := hr
  rcases hw with h | hw
  · cases h
  have hcb : cur < ns.length := hb cur (List.mem_cons_self cur rest)
  have hpa : (ndL ns cur).prev = (cur :: rest).getLastD 0 := hw.2
  have hpmem : (ndL ns cur).prev ∈ cur :: rest := by
    rw [hpa]
    exact getLastD_mem (List.cons_ne_nil _ _) 0
  have hpb : (ndL ns cur).prev < ns.length := hb _ hpmem
  have hnext : ∀ k, (ndL ns' k).next =
      if k = ns.length then cur
      else if k = (ndL ns cur).prev then ns.length
      else (ndL ns k).next :=
    fun k => by rw [hdesc k, spliceDesc_next _ _ _ _ _ hcb]
  have hprev : ∀ k, (ndL ns' k).prev =
      if k = ns.length then (ndL ns cur).prev
      else if k = cur then ns.length
      else (ndL ns k).prev :=
    fun k => by rw [hdesc k, spliceDesc_prev _ _ _ _ _ hpb]
  have hl1 : (ns.length :: cur :: rest).getLastD 0 =
      (cur :: rest).getLastD 0 := by
    rw [List.getLastD_cons,
      getLastD_ne_nil (List.cons_ne_nil cur rest) (ns.length) 0]
  refine ⟨?_, ?_, ?_, ?_⟩
  · intro i hi
    rw [hlen]
    rcases List.mem_cons.mp hi with h | h
    · omega
    · exact Nat.lt_succ_of_lt (hb i h)
  · refine List.nodup_cons.mpr ⟨fun hmem => ?_, hnd⟩
    exact Nat.lt_irrefl _ (hb _ hmem)
  · refine List.chain'_cons.mpr ⟨⟨?_, ?_⟩, ?_⟩
    · rw [hnext (ns.length), if_pos rfl]
    · rw [hprev cur, if_neg (Nat.ne_of_lt hcb), if_pos rfl]
    · refine (chain'_strengthen hnd hc).imp ?_
      rintro x y ⟨⟨h1, h2⟩, hxm, hym, hxl, hyh⟩
      have hxb : x < ns.length := hb x hxm
      have hyb : y < ns.length := hb y hym
      constructor
      · rw [hnext x, if_neg (Nat.ne_of_lt hxb),
          if_neg (by rw [hpa]; exact hxl)]
        exact h1
      · rw [hprev y, if_neg (Nat.ne_of_lt hyb), if_neg ?_]
        · exact h2
        · exact hyh
  · refine Or.inr ⟨?_, ?_⟩
    · rw [hl1, ← hpa, hnext _, if_neg (Nat.ne_of_lt hpb), if_pos rfl]
      rfl
    · have h0 : (ns.length :: cur :: rest).getD 0 0 = ns.length := rfl
      rw [h0, hprev (ns.length), if_pos rfl, hl1]
      exact hpa

theorem push_back_count (l : CircularList T) (v : T) :
    (push_back l v).count = l.count + 1 := by
  unfold push_back
  cases l.head <;> rfl

theorem push_back_nodes_len (l : CircularList T) (v : T) :
    (push_back l v).nodes.length = l.nodes.length + 1 := by
  unfold push_back
  cases l.head <;> simp [length_setNext, length_setPrev]

theorem push_back_of_none (l : CircularList T) (v : T) (hh : l.head = none) :
    push_back l v = ⟨l.nodes ++ [⟨v, l.nodes.length, l.nodes.length⟩],
      some l.nodes.length, l.count + 1⟩ := by
  unfold push_back
  rw [hh]

theorem push_back_head (l : CircularList T) (v : T) (h : Nat)
    (hh : l.head = some h) : (push_back l v).head = some h := by
  unfold push_back
  rw [hh]

theorem push_back_nodes_desc (l : CircularList T) (v : T) (h : Nat)
    (hh : l.head = some h) (hhb : h < l.nodes.length)
    (htb : (ndL l.nodes h).prev < l.nodes.length) (k : Nat) :
    ndL (push_back l v).nodes k =
      spliceDesc l.nodes h ((ndL l.nodes h).prev) v k := by
  unfold push_back
  rw [hh]
  exact ndL_pushWrites l.nodes h ((ndL l.nodes h).prev) v hhb htb k

theorem Ring_push_back {l : CircularList T} {r : List Nat}
    (hr : Ring l r) (v : T) :
    Ring (push_back l v) (r ++ [l.nodes.length]) := by
  obtain ⟨hh, hcnt, hir⟩ := hr
  cases r with
  | nil =>
    have hh0 : l.head = none := by simpa using hh
    rw [push_back_of_none l v hh0]
    refine ⟨rfl, by simpa using hcnt, ?_, by simp, by simp, Or.inr ?_⟩
    · intro i hi
      simp only [List.nil_append, List.mem_singleton] at hi
      simp [hi]
    · have h1 : ([] ++ [l.nodes.length]).getLastD 0 = l.nodes.length := rfl
      have h2 : ([] ++ [l.nodes.length]).getD 0 0 = l.nodes.length := rfl
      rw [h1, h2]
      show NextLink (l.nodes ++ [(⟨v, l.nodes.length, l.nodes.length⟩ : Node T)])
        l.nodes.length l.nodes.length
      refine ⟨?_, ?_⟩ <;> rw [ndL_append_self]
  | cons h0 rest =>
    have hh1 : l.head = some h0 := by simpa using hh
    have hhb : h0 < l.nodes.length :=
      hir.1 h0 (List.mem_cons_self h0 rest)
    have hpa : (ndL l.nodes h0).prev = (h0 :: rest).getLastD 0 := by
      rcases hir.2.2.2 with h | hw
      · cases h
      · exact hw.2
    have htb : (ndL l.nodes h0).prev < l.nodes.length := by
      rw [hpa]
      exact hir.1 _ (getLastD_mem (List.cons_ne_nil _ _) 0)
    have hdesc := push_back_nodes_desc l v h0 hh1 hhb htb
    have hlen := push_back_nodes_len l v
    have hspl := @isRing_splice T _ l.nodes (push_back l v).nodes h0 rest v
      hir hlen hdesc
    have hrot := isRing_rot hspl 1
    rw [show (1 : Nat) = 0 + 1 from rfl, List.rotate_cons_succ,
      List.rotate_zero] at hrot
    refine ⟨?_, ?_, ?_⟩
    · rw [push_back_head l v h0 hh1]
      rfl
    · rw [push_back_count]
      simp [hcnt]
    · simpa using hrot

/-- The data stored at any pre-existing index is unchanged by `push_back`;
the fresh index holds the pushed value. -/
theorem push_back_data (l : CircularList T) {r : List Nat}
    (hr : Ring l r) (v : T) (k : Nat) :
    (ndL (push_back l v).nodes k).data =
      if k = l.nodes.length then v else (ndL l.nodes k).data := by
  obtain ⟨hh, hcnt, hir⟩ := hr
  cases r with
  | nil =>
    have hh0 : l.head = none := by simpa using hh
    rw [push_back_of_none l v hh0]
    by_cases hk : k = l.nodes.length
    · subst hk
      simp [ndL_append_self]
    · simp [hk, ndL_append_ne _ _ _ hk]
  | cons h0 rest =>
    have hh1 : l.head = some h0 := by simpa using hh
    have hhb : h0 < l.nodes.length :=
      hir.1 h0 (List.mem_cons_self h0 rest)
    have hpa : (ndL l.nodes h0).prev = (h0 :: rest).getLastD 0 := by
      rcases hir.2.2.2 with h | hw
      · cases h
      · exact hw.2
    have htb : (ndL l.nodes h0).prev < l.nodes.length := by
      rw [hpa]
      exact hir.1 _ (getLastD_mem (List.cons_ne_nil _ _) 0)
    rw [push_back_nodes_desc l v h0 hh1 hhb htb k, spliceDesc_data]

theorem walk_of_chain (l : CircularList T) :
    ∀ (r : List Nat) (x : Nat), r.head? = some x →
      List.Chain' (fun u w => step l u = w) r → walk l x r.length = r
  | [], x, h, _ => by simp at h
  | [y], x, h, _ => by
    have hx : y = x := by simpa using h
    rw [← hx]
    rfl
  | y :: z :: t, x, h, hc => by
    have hx : y = x := by simpa using h
    have h1 : step l y = z := (List.chain'_cons.mp hc).1
    have h2 : walk l z (t.length + 1) = z :: t :=
      walk_of_chain l (z :: t) z rfl (List.chain'_cons.mp hc).2
    rw [← hx]
    show y :: walk l (step l y) (t.length + 1) = y :: z :: t
    rw [h1, h2]

theorem ringIdx_eq {l : CircularList T} {r : List Nat} (hr : Ring l r) :
    ringIdx l = r := by
  obtain ⟨hh, hcnt, hb, hnd, hc, hw⟩ := hr
  cases r with
  | nil =>
    have hh0 : l.head = none := by simpa using hh
    simp [ringIdx, hh0]
  | cons a t =>
    have hh1 : l.head = some a := by simpa using hh
    rw [ringIdx, hh1, hcnt]
    exact walk_of_chain l (a :: t) a rfl (hc.imp fun u w hw1 => hw1.1)

theorem toList_eq {l : CircularList T} {r : List Nat} (hr : Ring l r) :
    toList l = r.map fun i => (ndL l.nodes i).data := by
  rw [toList, ringIdx_eq hr]
  rfl

theorem toList_push_back {l : CircularList T} {r : List Nat}
    (hr : Ring l r) (v : T) :
    toList (push_back l v) = toList l ++ [v] := by
  rw [toList_eq (Ring_push_back hr v), toList_eq hr]
  rw [List.map_append]
  congr 1
  · refine List.map_congr_left fun i hi => ?_
    rw [push_back_data l hr v i,
      if_neg (Nat.ne_of_lt (hr.2.2.1 i hi))]
  · simp [push_back_data l hr v]

/-- On a well-formed list, `head = head->prev` after `push_back` designates
exactly the freshly allocated node: `push_front` equals `push_back` with the
head moved to the new node. -/
theorem push_front_eq {l : CircularList T} {r : List Nat}
    (hr : Ring l r) (v : T) :
    push_front l v =
      ⟨(push_back l v).nodes, some l.nodes.length, (push_back l v).count⟩ := by
  have hmap : (push_back l v).head.map
      (fun h => (ndL (push_back l v).nodes h).prev) = some l.nodes.length := by
    obtain ⟨hh, hcnt, hir⟩ := hr
    cases r with
    | nil =>
      have hh0 : l.head = none := by simpa using hh
      rw [push_back_of_none l v hh0]
      simp [ndL_append_self]
    | cons h0 rest =>
      have hh1 : l.head = some h0 := by simpa using hh
      have hhb : h0 < l.nodes.length :=
        hir.1 h0 (List.mem_cons_self h0 rest)
      have hpa : (ndL l.nodes h0).prev = (h0 :: rest).getLastD 0 := by
        rcases hir.2.2.2 with h | hw
        · cases h
        · exact hw.2
      have htb : (ndL l.nodes h0).prev < l.nodes.length := by
        rw [hpa]
        exact hir.1 _ (getLastD_mem (List.cons_ne_nil _ _) 0)
      rw [push_back_head l v h0 hh1, Option.map_some',
        push_back_nodes_desc l v h0 hh1 hhb htb h0,
        spliceDesc_prev _ _ _ _ _ htb, if_neg (Nat.ne_of_lt hhb), if_pos rfl]
  show ⟨(push_back l v).nodes, (push_back l v).head.map
    (fun h => (ndL (push_back l v).nodes h).prev), (push_back l v).count⟩ =
    (⟨(push_back l v).nodes, some l.nodes.length, (push_back l v).count⟩ :
      CircularList T)
  rw [hmap]

theorem Ring_push_front {l : CircularList T} {r : List Nat}
    (hr : Ring l r) (v : T) :
    Ring (push_front l v) (l.nodes.length :: r) := by
  rw [push_front_eq hr v]
  obtain ⟨hh1, hc1, hir1⟩ := Ring_push_back hr v
  refine ⟨rfl, ?_, ?_⟩
  · rw [push_back_count]
    have : l.count = r.length := hr.2.1
    simp [this]
  · have h1 := isRing_rot hir1 r.length
    rwa [List.rotate_eq_drop_append_take (by simp), List.drop_left,
      List.take_left] at h1

theorem toList_push_front {l : CircularList T} {r : List Nat}
    (hr : Ring l r) (v : T) :
    toList (push_front l v) = v :: toList l := by
  have h1 : toList (push_front l v) =
      (l.nodes.length :: r).map
        fun i => (ndL (push_front l v).nodes i).data :=
    toList_eq (Ring_push_front hr v)
  rw [h1, toList_eq hr]
  have hn : (push_front l v).nodes = (push_back l v).nodes := by
    rw [push_front_eq hr v]
  rw [hn]
  rw [List.map_cons]
  congr 1
  · rw [push_back_data l hr v, if_pos rfl]
  · refine List.map_congr_left fun i hi => ?_
    rw [push_back_data l hr v i,
      if_neg (Nat.ne_of_lt (hr.2.2.1 i hi))]

theorem pop_front_ok {l : CircularList T} {a : Nat} {rest : List Nat}
    (hr : Ring l (a :: rest)) :
    ∃ l', pop_front l = .ok l' ∧ Ring l' rest ∧
      l'.nodes.length = l.nodes.length ∧
      (∀ k, (ndL l'.nodes k).data = (ndL l.nodes k).data) := by
  obtain ⟨hh, hcnt, hir⟩ := hr
  have hh1 : l.head = some a := by simpa using hh
  have hcnt1 : l.count = rest.length + 1 := by simpa using hcnt
  have hne : ¬(l.count = 0) := by omega
  have hhd : hd l = a := by rw [hd, hh1]; rfl
  cases rest with
  | nil =>
    have hna : (ndL l.nodes a).next = a := by
      rcases hir.2.2.2 with h | hw
      · cases h
      · exact hw.1
    refine ⟨⟨l.nodes, none, l.count - 1⟩, ?_, ?_, rfl, fun k => rfl⟩
    · simp only [pop_front, if_neg hne, hhd]
      rw [show nd l a = ndL l.nodes a from rfl, hna, if_pos rfl]
    · refine ⟨rfl, ?_, by simp, by simp, by simp, Or.inl rfl⟩
      show l.count - 1 = ([] : List Nat).length
      have hc2 : l.count = 1 := by simpa using hcnt1
      simp [hc2]
  | cons b t =>
    have hna : (ndL l.nodes a).next = b := (List.chain'_cons.mp hir.2.2.1).1.1
    have hanb : a ∉ b :: t := (List.nodup_cons.mp hir.2.1).1
    have hab : b ≠ a := fun he =>
      hanb (he ▸ List.mem_cons_self b t)
    have hpa : (ndL l.nodes a).prev = (b :: t).getLastD 0 := by
      rcases hir.2.2.2 with h | hw
      · cases h
      · have h2 := hw.2
        rwa [List.getLastD_cons,
          getLastD_ne_nil (List.cons_ne_nil b t) a 0] at h2
    have hpb : (ndL l.nodes a).prev < l.nodes.length := by
      rw [hpa]
      exact hir.1 _ (List.mem_cons_of_mem a
        (getLastD_mem (List.cons_ne_nil b t) 0))
    have hnb : (ndL l.nodes a).next < l.nodes.length := by
      rw [hna]
      exact hir.1 b (List.mem_cons_of_mem a (List.mem_cons_self b t))
    have hdesc : ∀ k,
        ndL (setPrev (setNext l.nodes (ndL l.nodes a).prev
          (ndL l.nodes a).next) (ndL l.nodes a).next
          (ndL l.nodes a).prev) k =
        unspliceDesc l.nodes ((ndL l.nodes a).prev) ((ndL l.nodes a).next)
          k :=
      ndL_unspliceWrites l.nodes _ _ hpb hnb
    have hlen : (setPrev (setNext l.nodes (ndL l.nodes a).prev
        (ndL l.nodes a).next) (ndL l.nodes a).next
        (ndL l.nodes a).prev).length = l.nodes.length := by
      rw [length_setPrev, length_setNext]
    refine ⟨⟨setPrev (setNext l.nodes (ndL l.nodes a).prev
      (ndL l.nodes a).next) (ndL l.nodes a).next
      (ndL l.nodes a).prev, some (ndL l.nodes a).next, l.count - 1⟩,
      ?_, ?_, hlen, ?_⟩
    · simp only [pop_front, if_neg hne, hhd]
      rw [show nd l a = ndL l.nodes a from rfl, hna, if_neg hab, ← hna]
    · refine ⟨?_, by simpa using hcnt1, ?_⟩
      · rw [hna]
        rfl
      · exact @isRing_unsplice T _ l.nodes _ a b t hir hlen hdesc
    · intro k
      rw [hdesc k, unspliceDesc_data]

theorem pop_back_ok {l : CircularList T} {a : Nat} {rest : List Nat}
    (hr : Ring l (a :: rest)) :
    ∃ l', pop_back l = .ok l' ∧ Ring l' ((a :: rest).dropLast) ∧
      l'.nodes.length = l.nodes.length ∧
      (∀ k, (ndL l'.nodes k).data = (ndL l.nodes k).data) := by
  obtain ⟨hh, hcnt, hir⟩ := hr
  have hh1 : l.head = some a := by simpa using hh
  have hcnt1 : l.count = rest.length + 1 := by simpa using hcnt
  have hne : ¬(l.count = 0) := by omega
  have hhd : hd l = a := by rw [hd, hh1]; rfl
  have hpa : (ndL l.nodes a).prev = (a :: rest).getLastD 0 := by
    rcases hir.2.2.2 with h | hw
    · cases h
    · exact hw.2
  cases rest with
  | nil =>
    have hpaa : (ndL l.nodes a).prev = a := hpa
    refine ⟨⟨l.nodes, none, l.count - 1⟩, ?_, ?_, rfl, fun k => rfl⟩
    · simp only [pop_back, if_neg hne, hhd]
      rw [show nd l a = ndL l.nodes a from rfl, hpaa, if_pos rfl]
    · refine ⟨rfl, ?_, by simp, by simp, by simp, Or.inl rfl⟩
      show l.count - 1 = ([a] : List Nat).dropLast.length
      have hc2 : l.count = 1 := by simpa using hcnt1
      simp [hc2]
  | cons b t =>
    have hanbt : a ∉ b :: t := (List.nodup_cons.mp hir.2.1).1
    have htla : (a :: b :: t).getLastD 0 ≠ a := by
      intro he
      refine hanbt ?_
      rw [← he]
      have h0 : (a :: b :: t).getLastD 0 = (b :: t).getLastD 0 := by
        rw [List.getLastD_cons, getLastD_ne_nil (List.cons_ne_nil b t) a 0]
      rw [h0]
      exact getLastD_mem (List.cons_ne_nil b t) 0
    have htlmem : (a :: b :: t).getLastD 0 ∈ a :: b :: t :=
      getLastD_mem (List.cons_ne_nil _ _) 0
    -- the ring rotated so that the back node is first
    have hrot : IsRing l.nodes
        ((a :: b :: t).getLastD 0 :: (a :: b :: t).dropLast) := by
      have h1 := isRing_rot hir ((a :: b :: t).length - 1)
      have hdrop : (a :: b :: t).drop ((a :: b :: t).length - 1) =
          [(a :: b :: t).getLastD 0] := by
        have h2 : (a :: b :: t).length - 1 < (a :: b :: t).length := by
          simp
        rw [List.drop_eq_getElem_cons h2]
        rw [show (a :: b :: t).length - 1 + 1 = (a :: b :: t).length by simp,
          List.drop_length]
        rw [getLastD_eq_getD, getD_get _ _ h2]
        rfl
      rwa [List.rotate_eq_drop_append_take (by omega), hdrop,
        ← List.dropLast_eq_take] at h1
    have hshape : (a :: b :: t).dropLast = a :: (b :: t).dropLast := rfl
    rw [hshape] at hrot
    have hta : (ndL l.nodes ((a :: b :: t).getLastD 0)).next = a := by
      rcases hir.2.2.2 with h | hw
      · cases h
      · exact hw.1
    have htlb : (a :: b :: t).getLastD 0 < l.nodes.length :=
      hir.1 _ htlmem
    have hp2 : (ndL l.nodes ((a :: b :: t).getLastD 0)).prev <
        l.nodes.length := by
      have hw2 : (ndL l.nodes ((a :: b :: t).getLastD 0)).prev =
          (a :: (b :: t).dropLast).getLastD 0 := by
        rcases hrot.2.2.2 with h | hw
        · cases h
        · have h3 := hw.2
          have e1 := List.getLastD_cons 0 ((a :: b :: t).getLastD 0)
            (a :: (b :: t).dropLast)
          have e2 := getLastD_ne_nil
            (List.cons_ne_nil a ((b :: t).dropLast))
            ((a :: b :: t).getLastD 0) 0
          rw [e1, e2] at h3
          exact h3
      rw [hw2]
      exact hrot.1 _ (List.mem_cons_of_mem _
        (getLastD_mem (List.cons_ne_nil _ _) 0))
    have hdesc : ∀ k,
        ndL (setPrev (setNext l.nodes
          (ndL l.nodes ((ndL l.nodes a).prev)).prev a) a
          ((ndL l.nodes ((ndL l.nodes a).prev)).prev)) k =
        unspliceDesc l.nodes
          ((ndL l.nodes ((a :: b :: t).getLastD 0)).prev)
          ((ndL l.nodes ((a :: b :: t).getLastD 0)).next) k := by
      intro k
      rw [hpa, hta]
      exact ndL_unspliceWrites l.nodes _ _ hp2 (hta ▸ hir.1 a
        (List.mem_cons_self a (b :: t))) k
    have hlen : (setPrev (setNext l.nodes
        (ndL l.nodes ((ndL l.nodes a).prev)).prev a) a
        ((ndL l.nodes ((ndL l.nodes a).prev)).prev)).length =
        l.nodes.length := by
      rw [length_setPrev, length_setNext]
    refine ⟨⟨setPrev (setNext l.nodes
      (ndL l.nodes ((ndL l.nodes a).prev)).prev a) a
      ((ndL l.nodes ((ndL l.nodes a).prev)).prev), some a, l.count - 1⟩,
      ?_, ?_, hlen, ?_⟩
    · simp only [pop_back, if_neg hne, hhd]
      rw [show nd l a = ndL l.nodes a from rfl]
      rw [show (ndL l.nodes a).prev = (a :: b :: t).getLastD 0 from hpa,
        if_neg htla, ← hpa]
      rfl
    · refine ⟨rfl, ?_, ?_⟩
      · show l.count - 1 = (a :: (b :: t).dropLast).length
        simp only [List.length_cons, List.length_dropLast] at hcnt1 ⊢
        omega
      · exact @isRing_unsplice T _ l.nodes _ ((a :: b :: t).getLastD 0) a
          ((b :: t).dropLast) hrot hlen hdesc
    · intro k
      rw [hdesc k, unspliceDesc_data]

theorem rotate_append_left (u w : List Nat) :
    (u ++ w).rotate u.length = w ++ u := by
  rw [List.rotate_eq_drop_append_take (by simp), List.drop_left,
    List.take_left]

theorem getD_mem {r : List Nat} {k : Nat} (hk : k < r.length) :
    r.getD k 0 ∈ r := by
  rw [getD_get r k hk]
  exact List.get_mem r k hk

theorem getD_inj {r : List Nat} (hnd : r.Nodup) {k1 k2 : Nat}
    (h1 : k1 < r.length) (h2 : k2 < r.length)
    (he : r.getD k1 0 = r.getD k2 0) : k1 = k2 := by
  rw [getD_get r k1 h1, getD_get r k2 h2] at he
  exact congrArg Fin.val (hnd.get_inj_iff.mp he)

/-- Cyclic successor: the `next` link of the `k`-th ring node points at the
`(k+1 mod count)`-th one. -/
theorem ring_next_getD {ns : List (Node T)} {r : List Nat}
    (hir : IsRing ns r) (k : Nat) (hk : k < r.length) :
    (ndL ns (r.getD k 0)).next = r.getD ((k + 1) % r.length) 0 := by
  obtain ⟨hb, hnd, hc, hw⟩ := hir
  by_cases hlast : k = r.length - 1
  · have h0 : 0 < r.length := by omega
    have h1 : k + 1 = r.length := by omega
    have h2 : (k + 1) % r.length = 0 := by
      rw [h1, Nat.mod_self]
    rcases hw with h | hw
    · rw [h] at hk
      simp at hk
    · rw [h2, hlast, ← getLastD_eq_getD]
      exact hw.1
  · have h2 : k + 1 < r.length := by omega
    have h3 : (k + 1) % r.length = k + 1 := Nat.mod_eq_of_lt h2
    rw [h3]
    have hcg := List.chain'_iff_get.mp hc k (by omega)
    rw [getD_get r k hk, getD_get r (k + 1) h2]
    exact hcg.1

/-- `insert` at a dereferenceable position `k` splices the new node before it:
the ring becomes `take k ++ [fresh] ++ drop k`, the returned iterator
references the fresh node, head moves to the fresh node exactly when `k = 0`,
and stored data elsewhere is untouched. -/
theorem insert_at {l : CircularList T} {r : List Nat} (hr : Ring l r)
    (k : Nat) (hk : k < r.length) (pos : Iter)
    (hpos : pos.node = some (r.getD k 0)) (v : T) :
    Ring (insert l pos v).1 (r.take k ++ l.nodes.length :: r.drop k) ∧
    (insert l pos v).2 = ⟨some l.nodes.length, (insert l pos v).1.head⟩ ∧
    (insert l pos v).1.nodes.length = l.nodes.length + 1 ∧
    (∀ j, (ndL (insert l pos v).1.nodes j).data =
      if j = l.nodes.length then v else (ndL l.nodes j).data) ∧
    (insert l pos v).1.head =
      (if k = 0 then some l.nodes.length else l.head) ∧
    (insert l pos v).1.count = l.count + 1 := by
  obtain ⟨hh, hcnt, hir⟩ := hr
  obtain ⟨h0, rest, rfl⟩ : ∃ h0 rest, r = h0 :: rest := by
    cases r with
    | nil => simp at hk
    | cons x xs => exact ⟨x, xs, rfl⟩
  have hh1 : l.head = some h0 := by simpa using hh
  have hcb : (h0 :: rest).getD k 0 < l.nodes.length := hir.1 _ (getD_mem hk)
  have hins : insert l pos v =
      (⟨setPrev (setNext (setPrev (setNext
          (l.nodes ++ [⟨v, l.nodes.length, l.nodes.length⟩])
          l.nodes.length ((h0 :: rest).getD k 0))
          l.nodes.length ((nd l ((h0 :: rest).getD k 0)).prev))
          ((nd l ((h0 :: rest).getD k 0)).prev) l.nodes.length)
          ((h0 :: rest).getD k 0) l.nodes.length,
        if (h0 :: rest).getD k 0 = h0 then some l.nodes.length else some h0,
        l.count + 1⟩,
       ⟨some l.nodes.length,
        if (h0 :: rest).getD k 0 = h0 then some l.nodes.length
        else some h0⟩) := by
    rw [show insert l pos v = insert l ⟨some ((h0 :: rest).getD k 0),
      pos.head⟩ v by rw [← hpos]]
    simp only [insert, hh1]
  have hpb : (ndL l.nodes ((h0 :: rest).getD k 0)).prev < l.nodes.length := by
    have h1 := isRing_rot hir k
    rw [List.rotate_eq_drop_append_take (Nat.le_of_lt hk)] at h1
    have hdk : (h0 :: rest).drop k =
        (h0 :: rest).getD k 0 :: (h0 :: rest).drop (k + 1) := by
      rw [getD_get _ k hk]
      exact List.drop_eq_getElem_cons hk
    rw [hdk] at h1
    have hpa : (ndL l.nodes ((h0 :: rest).getD k 0)).prev =
        ((h0 :: rest).getD k 0 ::
          ((h0 :: rest).drop (k + 1) ++ (h0 :: rest).take k)).getLastD 0 := by
      rcases h1.2.2.2 with h | hw
      · cases h
      · exact hw.2
    rw [hpa]
    exact h1.1 _ (getLastD_mem (List.cons_ne_nil _ _) 0)
  have hdesc : ∀ j, ndL (insert l pos v).1.nodes j =
      spliceDesc l.nodes ((h0 :: rest).getD k 0)
        ((ndL l.nodes ((h0 :: rest).getD k 0)).prev) v j := by
    intro j
    rw [hins]
    exact ndL_insertWrites l.nodes _ _ v hcb hpb j
  have hlen4 : (insert l pos v).1.nodes.length = l.nodes.length + 1 := by
    rw [hins]
    show (setPrev (setNext (setPrev (setNext _ _ _) _ _) _ _) _ _).length = _
    rw [length_setPrev, length_setNext, length_setPrev, length_setNext]
    simp
  -- the spliced ring, rotated to start at the fresh node
  have h1 := isRing_rot hir k
  rw [List.rotate_eq_drop_append_take (Nat.le_of_lt hk)] at h1
  have hdk : (h0 :: rest).drop k =
      (h0 :: rest).getD k 0 :: (h0 :: rest).drop (k + 1) := by
    rw [getD_get _ k hk]
    exact List.drop_eq_getElem_cons hk
  rw [hdk] at h1
  have hsp := @isRing_splice T _ l.nodes (insert l pos v).1.nodes
    ((h0 :: rest).getD k 0)
    ((h0 :: rest).drop (k + 1) ++ (h0 :: rest).take k) v h1 hlen4 hdesc
  have he : (l.nodes.length :: (h0 :: rest).getD k 0 ::
      ((h0 :: rest).drop (k + 1) ++ (h0 :: rest).take k)) =
      ([l.nodes.length] ++ (h0 :: rest).drop k) ++ (h0 :: rest).take k := by
    rw [hdk]
    simp
  rw [he] at hsp
  have h2 := isRing_rot hsp (([l.nodes.length] ++ (h0 :: rest).drop k).length)
  rw [rotate_append_left] at h2
  have hkh : (h0 :: rest).getD k 0 = h0 ↔ k = 0 := by
    constructor
    · intro heq
      exact getD_inj hir.2.1 hk (by simp)
        (by rw [heq]; rfl)
    · intro hk0
      rw [hk0]
      rfl
  refine ⟨⟨?_, ?_, ?_⟩, ?_, hlen4, ?_, ?_, ?_⟩
  · -- head matches the new ring's first element
    rw [hins]
    show (if (h0 :: rest).getD k 0 = h0 then some l.nodes.length
      else some h0) = _
    by_cases hc0 : (h0 :: rest).getD k 0 = h0
    · rw [if_pos hc0]
      have hk0 : k = 0 := hkh.mp hc0
      subst hk0
      rfl
    · rw [if_neg hc0]
      have hk0 : ¬(k = 0) := fun h => hc0 (hkh.mpr h)
      obtain ⟨k1, rfl⟩ : ∃ k1, k = k1 + 1 := ⟨k - 1, by omega⟩
      rfl
  · -- count
    rw [hins]
    show l.count + 1 =
      ((h0 :: rest).take k ++ l.nodes.length :: (h0 :: rest).drop k).length
    have hc1 : l.count = (h0 :: rest).length := hcnt
    simp [hc1]
    omega
  · -- the ring structure itself
    have he2 : (h0 :: rest).take k ++ ([l.nodes.length] ++
        (h0 :: rest).drop k) =
        (h0 :: rest).take k ++ l.nodes.length :: (h0 :: rest).drop k := rfl
    rwa [he2] at h2
  · rw [hins]
  · intro j
    rw [hdesc j, spliceDesc_data]
  · rw [hins]
    show (if (h0 :: rest).getD k 0 = h0 then some l.nodes.length
      else some h0) = _
    by_cases hc0 : (h0 :: rest).getD k 0 = h0
    · rw [if_pos hc0, if_pos (hkh.mp hc0)]
    · rw [if_neg hc0, if_neg (fun h => hc0 (hkh.mpr h)), hh1]
  · rw [hins]

theorem succ_mod_eq (j len : Nat) (h : j < len) :
    (j + 1) % len = if j + 1 < len then j + 1 else 0 := by
  by_cases h2 : j + 1 < len
  · rw [Nat.mod_eq_of_lt h2, if_pos h2]
  · have h3 : j + 1 = len := by omega
    rw [if_neg h2, h3, Nat.mod_self]

/-- `erase` at a dereferenceable position `k` unlinks exactly that node: the
ring becomes `take k ++ drop (k+1)`, the returned iterator references the
following node in iteration order (end sentinel when the back node was
erased), head is reassigned to the removed node's successor exactly when the
head was removed (absent when it was the only node), and stored data is
untouched. -/
theorem erase_at {l : CircularList T} {r : List Nat} (hr : Ring l r)
    (k : Nat) (hk : k < r.length) (pos : Iter)
    (hpos : pos.node = some (r.getD k 0)) :
    ∃ l' it, erase l pos = .ok (l', it) ∧
      Ring l' (r.take k ++ r.drop (k + 1)) ∧
      l'.nodes.length = l.nodes.length ∧
      (∀ j, (ndL l'.nodes j).data = (ndL l.nodes j).data) ∧
      it.node = (if k + 1 < r.length then some (r.getD (k + 1) 0)
        else none) ∧
      it.head = l.head ∧
      l'.count = l.count - 1 ∧
      l'.head = (if r.length = 1 then none
        else if k = 0 then some (r.getD 1 0) else l.head) := by
  obtain ⟨hh, hcnt, hir⟩ := hr
  obtain ⟨h0, rest, rfl⟩ : ∃ h0 rest, r = h0 :: rest := by
    cases r with
    | nil => simp at hk
    | cons x xs => exact ⟨x, xs, rfl⟩
  have hh1 : l.head = some h0 := by simpa using hh
  have hcnt1 : l.count = rest.length + 1 := by simpa using hcnt
  have hne : ¬(l.count = 0) := by omega
  have hhd : hd l = h0 := by rw [hd, hh1]; rfl
  have hnxt : (ndL l.nodes ((h0 :: rest).getD k 0)).next =
      (h0 :: rest).getD ((k + 1) % (h0 :: rest).length) 0 :=
    ring_next_getD hir k hk
  cases rest with
  | nil =>
    have hk0 : k = 0 := by
      simp at hk
      omega
    subst hk0
    have hnn : (ndL l.nodes ([h0].getD 0 0)).next = h0 := by
      simpa using hnxt
    refine ⟨⟨l.nodes, none, l.count - 1⟩, ⟨none, some h0⟩, ?_, ?_, rfl,
      fun j => rfl, by simp, hh1.symm, rfl, by simp⟩
    · simp only [erase, if_neg hne, hpos, hhd]
      rw [show nd l ([h0].getD 0 0) = ndL l.nodes ([h0].getD 0 0) from rfl,
        hnn]
      simp
    · refine ⟨rfl, ?_, by simp, by simp, by simp, Or.inl rfl⟩
      show l.count - 1 = ([h0].take 0 ++ [h0].drop 1).length
      have hc2 : l.count = 1 := by simpa using hcnt1
      simp [hc2]
  | cons b t =>
    have hlen2 : 2 ≤ (h0 :: b :: t).length := by simp
    -- the ring rotated so the removed node is first
    have h1 := isRing_rot hir k
    rw [List.rotate_eq_drop_append_take (Nat.le_of_lt hk)] at h1
    have hdk : (h0 :: b :: t).drop k =
        (h0 :: b :: t).getD k 0 :: (h0 :: b :: t).drop (k + 1) := by
      rw [getD_get _ k hk]
      exact List.drop_eq_getElem_cons hk
    rw [hdk] at h1
    have hr2len : ((h0 :: b :: t).drop (k + 1) ++
        (h0 :: b :: t).take k).length = (h0 :: b :: t).length - 1 := by
      rw [List.length_append, List.length_drop, List.length_take,
        Nat.min_eq_left (Nat.le_of_lt hk)]
      omega
    have hlen3 : (h0 :: b :: t).length = t.length + 2 := by simp
    have hguard : (ndL l.nodes ((h0 :: b :: t).getD k 0)).next ≠
        (h0 :: b :: t).getD k 0 := by
      rw [hnxt]
      intro he
      have h2 := getD_inj hir.2.1
        (Nat.mod_lt _ (by simp) : (k + 1) % (h0 :: b :: t).length <
          (h0 :: b :: t).length) hk he
      rw [succ_mod_eq k _ hk] at h2
      by_cases h3 : k + 1 < (h0 :: b :: t).length
      · rw [if_pos h3] at h2
        omega
      · rw [if_neg h3] at h2
        omega
    obtain ⟨y, t2, hyt⟩ : ∃ y t2, (h0 :: b :: t).drop (k + 1) ++
        (h0 :: b :: t).take k = y :: t2 := by
      cases hq : (h0 :: b :: t).drop (k + 1) ++ (h0 :: b :: t).take k with
      | nil =>
        rw [hq] at hr2len
        simp at hr2len
      | cons y t2 => exact ⟨y, t2, rfl⟩
    rw [List.cons_append, hyt] at h1
    have hnb : (ndL l.nodes ((h0 :: b :: t).getD k 0)).next <
        l.nodes.length := by
      rw [hnxt]
      exact hir.1 _ (getD_mem (Nat.mod_lt _ (by omega)))
    have hpb : (ndL l.nodes ((h0 :: b :: t).getD k 0)).prev <
        l.nodes.length := by
      have hpa : (ndL l.nodes ((h0 :: b :: t).getD k 0)).prev =
          ((h0 :: b :: t).getD k 0 :: y :: t2).getLastD 0 := by
        rcases h1.2.2.2 with h | hw
        · cases h
        · exact hw.2
      rw [hpa]
      exact h1.1 _ (getLastD_mem (List.cons_ne_nil _ _) 0)
    have hdesc : ∀ j,
        ndL (setPrev (setNext l.nodes
          (ndL l.nodes ((h0 :: b :: t).getD k 0)).prev
          (ndL l.nodes ((h0 :: b :: t).getD k 0)).next)
          (ndL l.nodes ((h0 :: b :: t).getD k 0)).next
          (ndL l.nodes ((h0 :: b :: t).getD k 0)).prev) j =
        unspliceDesc l.nodes
          ((ndL l.nodes ((h0 :: b :: t).getD k 0)).prev)
          ((ndL l.nodes ((h0 :: b :: t).getD k 0)).next) j :=
      ndL_unspliceWrites l.nodes _ _ hpb hnb
    have hlen : (setPrev (setNext l.nodes
        (ndL l.nodes ((h0 :: b :: t).getD k 0)).prev
        (ndL l.nodes ((h0 :: b :: t).getD k 0)).next)
        (ndL l.nodes ((h0 :: b :: t).getD k 0)).next
        (ndL l.nodes ((h0 :: b :: t).getD k 0)).prev).length =
        l.nodes.length := by
      rw [length_setPrev, length_setNext]
    have hun := @isRing_unsplice T _ l.nodes _ ((h0 :: b :: t).getD k 0) y t2
      h1 hlen hdesc
    rw [← hyt] at hun
    have h2 := isRing_rot hun (((h0 :: b :: t).drop (k + 1)).length)
    rw [rotate_append_left] at h2
    have hkh : (h0 :: b :: t).getD k 0 = h0 ↔ k = 0 := by
      constructor
      · intro heq
        exact getD_inj hir.2.1 hk (by simp) (by rw [heq]; rfl)
      · intro hk0
        rw [hk0]
        rfl
    have hnxth : (ndL l.nodes ((h0 :: b :: t).getD k 0)).next = h0 ↔
        ¬(k + 1 < (h0 :: b :: t).length) := by
      rw [hnxt, succ_mod_eq k _ hk]
      by_cases h3 : k + 1 < (h0 :: b :: t).length
      · rw [if_pos h3]
        simp only [h3, not_true, iff_false]
        intro he
        have h4 := getD_inj hir.2.1 h3
          (show (0 : Nat) < (h0 :: b :: t).length by simp)
          (by rw [he]; rfl)
        omega
      · rw [if_neg h3]
        exact iff_of_true rfl h3
    refine ⟨⟨setPrev (setNext l.nodes
      (ndL l.nodes ((h0 :: b :: t).getD k 0)).prev
      (ndL l.nodes ((h0 :: b :: t).getD k 0)).next)
      (ndL l.nodes ((h0 :: b :: t).getD k 0)).next
      (ndL l.nodes ((h0 :: b :: t).getD k 0)).prev,
      if (h0 :: b :: t).getD k 0 = h0
        then some (ndL l.nodes ((h0 :: b :: t).getD k 0)).next
        else some h0, l.count - 1⟩,
      ⟨if (ndL l.nodes ((h0 :: b :: t).getD k 0)).next = h0 then none
        else some (ndL l.nodes ((h0 :: b :: t).getD k 0)).next, some h0⟩,
      ?_, ⟨?_, ?_, h2⟩, hlen, ?_, ?_, hh1.symm, rfl, ?_⟩
    · simp only [erase, if_neg hne, hpos, hhd]
      rw [show nd l ((h0 :: b :: t).getD k 0) =
        ndL l.nodes ((h0 :: b :: t).getD k 0) from rfl, if_neg hguard]
    · -- head of the new ring
      by_cases hc0 : k = 0
      · subst hc0
        rw [if_pos (hkh.mpr rfl)]
        have hd1 : (h0 :: b :: t).drop 1 =
            (h0 :: b :: t).getD 1 0 :: (h0 :: b :: t).drop 2 := by
          rw [getD_get _ 1 (by simp)]
          exact List.drop_eq_getElem_cons (by simp)
        rw [show (h0 :: b :: t).take 0 ++ (h0 :: b :: t).drop (0 + 1) =
          (h0 :: b :: t).drop 1 from rfl, hd1, hnxt]
        rfl
      · rw [if_neg (fun h => hc0 (hkh.mp h))]
        obtain ⟨k1, rfl⟩ : ∃ k1, k = k1 + 1 := ⟨k - 1, by omega⟩
        rfl
    · -- count of the new ring
      show l.count - 1 =
        ((h0 :: b :: t).take k ++ (h0 :: b :: t).drop (k + 1)).length
      have hc1 : l.count = (h0 :: b :: t).length := hcnt
      simp [hc1]
      omega
    · intro j
      rw [hdesc j, unspliceDesc_data]
    · -- the returned iterator's node
      by_cases h3 : k + 1 < (h0 :: b :: t).length
      · rw [if_pos h3,
          if_neg (fun he => absurd (hnxth.mp he) (by simpa using h3)), hnxt,
          succ_mod_eq k _ hk, if_pos h3]
      · rw [if_neg h3, if_pos (hnxth.mpr h3)]
    · -- head of the resulting list
      rw [if_neg (by simp : ¬((h0 :: b :: t).length = 1))]
      by_cases hc0 : k = 0
      · subst hc0
        rw [if_pos rfl, if_pos (hkh.mpr rfl), hnxt]
        rfl
      · rw [if_neg hc0, if_neg (fun h => hc0 (hkh.mp h)), hh1]

theorem clearGo_spec :
    ∀ (r : List Nat) (l : CircularList T), Ring l r →
      (clearGo r.length l).head = none ∧ (clearGo r.length l).count = 0
  | [], l, hr => ⟨by simpa using hr.1, by simpa using hr.2.1⟩
  | a :: rest, l, hr => by
    obtain ⟨l1, hpf, hr1, _, _⟩ := pop_front_ok hr
    have hcnt : l.count = rest.length + 1 := by simpa using hr.2.1
    have hstep : clearGo (a :: rest).length l = clearGo rest.length l1 := by
      show clearGo (rest.length + 1) l = clearGo rest.length l1
      rw [clearGo, if_neg (by omega), hpf]
    rw [hstep]
    exact clearGo_spec rest l1 hr1

theorem Ring_clear {l : CircularList T} {r : List Nat} (hr : Ring l r) :
    Ring (clear l) [] := by
  have h1 : clear l = clearGo r.length l := by
    rw [clear, hr.2.1]
  obtain ⟨hh, hc⟩ := clearGo_spec r l hr
  rw [h1]
  exact ⟨by simpa using hh, by simpa using hc, by simp, by simp, by simp,
    Or.inl rfl⟩

theorem toList_empty_ring {l : CircularList T} (hr : Ring l []) :
    toList l = [] := by
  rw [toList_eq hr]
  rfl

theorem pushList_spec :
    ∀ (xs : List T) (l : CircularList T) (r : List Nat), Ring l r →
      ∃ r', Ring (pushList l xs) r' ∧
        toList (pushList l xs) = toList l ++ xs
  | [], l, r, hr => ⟨r, hr, by simp [pushList]⟩
  | x :: xs, l, r, hr => by
    have h1 := Ring_push_back hr x
    have h2 := toList_push_back hr x
    obtain ⟨r', hr', ht⟩ := pushList_spec xs (push_back l x) _ h1
    refine ⟨r', hr', ?_⟩
    show toList (pushList (push_back l x) xs) = toList l ++ x :: xs
    rw [ht, h2]
    simp

theorem assign_spec {l : CircularList T} {r : List Nat} (hr : Ring l r)
    (n : Nat) (v : T) :
    ∃ r', Ring (assign l n v) r' ∧
      toList (assign l n v) = List.replicate n v := by
  have hc := Ring_clear hr
  obtain ⟨r', hr', ht⟩ := pushList_spec (List.replicate n v) (clear l) [] hc
  refine ⟨r', hr', ?_⟩
  rw [show assign l n v = pushList (clear l) (List.replicate n v) from rfl,
    ht, toList_empty_ring hc]
  rfl

theorem step_iter {l : CircularList T} {r : List Nat}
    (hir : IsRing l.nodes r) (hne : 0 < r.length) :
    ∀ m, (step l)^[m] (r.getD 0 0) = r.getD (m % r.length) 0
  | 0 => by simp
  | m + 1 => by
    rw [Function.iterate_succ_apply', step_iter hir hne m]
    rw [show step l (r.getD (m % r.length) 0) =
      (ndL l.nodes (r.getD (m % r.length) 0)).next from rfl]
    rw [ring_next_getD hir (m % r.length) (Nat.mod_lt _ hne),
      Nat.mod_add_mod]

theorem Ring_invariants {l : CircularList T} {r : List Nat}
    (hr : Ring l r) : Invariants l := by
  refine ⟨?_, ?_, ?_, ?_⟩
  · rw [hr.1, hr.2.1]
    cases r <;> simp
  · intro h hhead
    have hh2 : r.head? = some h := by rw [← hr.1]; exact hhead
    obtain ⟨rest, rfl⟩ : ∃ rest, r = h :: rest := by
      cases r with
      | nil => simp at hh2
      | cons x xs =>
        refine ⟨xs, ?_⟩
        have : x = h := by simpa using hh2
        rw [this]
    have hne : 0 < (h :: rest).length := by simp
    constructor
    · have h1 := step_iter hr.2.2 hne (h :: rest).length
      rw [Nat.mod_self] at h1
      rw [hr.2.1]
      exact h1
    · rw [ringIdx_eq hr]
      rcases hr.2.2.2.2.2 with h2 | h2
      · cases h2
      · exact h2.2
  · rw [ringIdx_eq hr]
    exact hr.2.2.2.1
  · rw [ringIdx_eq hr, ← hr.2.1]

theorem iterIncN_getD {l : CircularList T} {r : List Nat} (hr : Ring l r)
    (hne : 0 < r.length) :
    ∀ (k m : Nat) (hh : Option Nat),
      iterIncN l k ⟨some (r.getD (m % r.length) 0), hh⟩ =
        .ok ⟨some (r.getD ((m + k) % r.length) 0), hh⟩
  | 0, m, hh => by
    show Except.ok _ = _
    rw [Nat.add_zero]
  | k + 1, m, hh => by
    have h0 : iterIncN l (k + 1) ⟨some (r.getD (m % r.length) 0), hh⟩ =
        iterIncN l k ⟨some (nd l (r.getD (m % r.length) 0)).next, hh⟩ := rfl
    have h1 : (nd l (r.getD (m % r.length) 0)).next =
        r.getD ((m + 1) % r.length) 0 := by
      rw [show (nd l (r.getD (m % r.length) 0)).next =
        (ndL l.nodes (r.getD (m % r.length) 0)).next from rfl,
        ring_next_getD hr.2.2 _ (Nat.mod_lt _ hne), Nat.mod_add_mod]
    rw [h0, h1,
      show (m + 1) % r.length = ((m + 1) % r.length) % r.length from
        (Nat.mod_mod_of_dvd _ dvd_rfl).symm,
      iterIncN_getD hr hne k ((m + 1) % r.length) hh, Nat.mod_add_mod,
      show m + 1 + k = m + (k + 1) by omega]

theorem toList_length {l : CircularList T} {r : List Nat} (hr : Ring l r) :
    (toList l).length = r.length := by
  rw [toList_eq hr]
  simp

theorem toList_getD {l : CircularList T} {r : List Nat} (hr : Ring l r)
    {m : Nat} (hm : m < r.length) :
    (toList l).getD m default = (nd l (r.getD m 0)).data := by
  rw [toList_eq hr, List.getD_eq_getElem?_getD, List.getElem?_map,
    List.getElem?_eq_getElem hm]
  simp only [Option.map_some', Option.getD_some]
  rw [getD_get r m hm]
  rfl

theorem drop_toList_cons {l : CircularList T} {r : List Nat} (hr : Ring l r)
    {m : Nat} (hm : m < r.length) :
    (toList l).drop m =
      (toList l).getD m default :: (toList l).drop (m + 1) := by
  have hml : m < (toList l).length := by rw [toList_length hr]; exact hm
  rw [List.drop_eq_getElem_cons hml]
  congr 1
  rw [List.getD_eq_getElem?_getD, List.getElem?_eq_getElem hml]
  rfl

theorem eqGo_spec [DecidableEq T] {a b : CircularList T} {ra rb : List Nat}
    (hra : Ring a ra) (hrb : Ring b rb) (hcnt : a.count = b.count) :
    ∀ (k m : Nat), m + k = a.count →
      eqGo a b k ⟨some (ra.getD (m % ra.length) 0), a.head⟩
        ⟨some (rb.getD (m % rb.length) 0), b.head⟩ =
      .ok (decide ((toList a).drop m = (toList b).drop m))
  | 0, m, hmk => by
    have h1 : (toList a).drop m = [] :=
      List.drop_eq_nil_of_le (by rw [toList_length hra, ← hra.2.1]; omega)
    have h2 : (toList b).drop m = [] :=
      List.drop_eq_nil_of_le (by rw [toList_length hrb, ← hrb.2.1]; omega)
    rw [h1, h2]
    rfl
  | k + 1, m, hmk => by
    have hms : m < ra.length := by rw [← hra.2.1]; omega
    have hmb : m < rb.length := by rw [← hrb.2.1]; omega
    have hmma : m % ra.length = m := Nat.mod_eq_of_lt hms
    have hmmb : m % rb.length = m := Nat.mod_eq_of_lt hmb
    have hstep : eqGo a b (k + 1)
        ⟨some (ra.getD (m % ra.length) 0), a.head⟩
        ⟨some (rb.getD (m % rb.length) 0), b.head⟩ =
        (if (nd a (ra.getD (m % ra.length) 0)).data ≠
            (nd b (rb.getD (m % rb.length) 0)).data then .ok false
         else eqGo a b k
           ⟨some (nd a (ra.getD (m % ra.length) 0)).next, a.head⟩
           ⟨some (nd b (rb.getD (m % rb.length) 0)).next, b.head⟩) := rfl
    have hna : (nd a (ra.getD m 0)).next = ra.getD ((m + 1) % ra.length) 0 :=
      ring_next_getD hra.2.2 m hms
    have hnb : (nd b (rb.getD m 0)).next = rb.getD ((m + 1) % rb.length) 0 :=
      ring_next_getD hrb.2.2 m hmb
    rw [hstep, hmma, hmmb, drop_toList_cons hra hms, drop_toList_cons hrb hmb,
      toList_getD hra hms, toList_getD hrb hmb]
    by_cases hv : (nd a (ra.getD m 0)).data = (nd b (rb.getD m 0)).data
    · rw [if_neg (by simpa using hv), hna, hnb,
        eqGo_spec hra hrb hcnt k (m + 1) (by omega)]
      refine congrArg Except.ok ?_
      rw [hv]
      exact decide_eq_decide.mpr (by simp)
    · rw [if_pos hv]
      have hd : decide
          ((nd a (ra.getD m 0)).data :: (toList a).drop (m + 1) =
            (nd b (rb.getD m 0)).data :: (toList b).drop (m + 1)) = false := by
        rw [decide_eq_false_iff_not]
        intro h
        injection h with h1 h2
        exact hv h1
      rw [hd]

theorem head_getD_zero {r : List Nat} {x : Nat} (h : r.head? = some x) :
    r.getD 0 0 = x := by
  cases r with
  | nil => simp at h
  | cons y ys =>
    have : y = x := by simpa using h
    rw [← this]
    rfl

theorem beginIt_getD {l : CircularList T} {r : List Nat} (hr : Ring l r)
    (hne : 0 < r.length) :
    beginIt l = ⟨some (r.getD (0 % r.length) 0), l.head⟩ := by
  obtain ⟨x, hx⟩ : ∃ x, r.head? = some x := by
    cases r with
    | nil => simp at hne
    | cons y ys => exact ⟨y, rfl⟩
  rw [beginIt, Nat.zero_mod, head_getD_zero hx, hr.1, hx]

theorem listEq_spec [DecidableEq T] {a b : CircularList T} {ra rb : List Nat}
    (hra : Ring a ra) (hrb : Ring b rb) :
    listEq a b = .ok (decide (toList a = toList b)) := by
  by_cases hc : a.count = b.count
  · by_cases h0 : a.count = 0
    · have hra0 : ra = [] :=
        List.length_eq_zero.mp (by rw [← hra.2.1, h0])
      have hrb0 : rb = [] :=
        List.length_eq_zero.mp (by rw [← hrb.2.1, ← hc, h0])
      have ha : toList a = [] := toList_empty_ring (hra0 ▸ hra)
      have hb : toList b = [] := toList_empty_ring (hrb0 ▸ hrb)
      rw [listEq, if_neg (by omega), if_pos h0, ha, hb]
      rfl
    · have hnea : 0 < ra.length := by rw [← hra.2.1]; omega
      have hneb : 0 < rb.length := by rw [← hrb.2.1, ← hc]; omega
      have h1 : listEq a b = eqGo a b a.count (beginIt a) (beginIt b) := by
        rw [listEq, if_neg (by omega), if_neg h0]
      rw [h1, beginIt_getD hra hnea, beginIt_getD hrb hneb,
        eqGo_spec hra hrb hc a.count 0 (by omega), List.drop_zero,
        List.drop_zero]
  · have hne : toList a ≠ toList b := by
      intro h
      have h2 := congrArg List.length h
      rw [toList_length hra, toList_length hrb, ← hra.2.1, ← hrb.2.1] at h2
      exact hc h2
    rw [listEq, if_pos (by omega), decide_eq_false hne]

theorem listNe_spec [DecidableEq T] {a b : CircularList T} {ra rb : List Nat}
    (hra : Ring a ra) (hrb : Ring b rb) :
    listNe a b = .ok (!decide (toList a = toList b)) := by
  rw [listNe, listEq_spec hra hrb]
  rfl

theorem lexLt_nil_right [LinearOrder T] (xs : List T) :
    lexLt xs [] = false := by
  cases xs <;> rfl

theorem lexLt_drop_min [LinearOrder T] (xs ys : List T) :
    lexLt (xs.drop (min xs.length ys.length))
      (ys.drop (min xs.length ys.length)) = decide (xs.length < ys.length) := by
  rcases Nat.le_total xs.length ys.length with h | h
  · rw [Nat.min_eq_left h, List.drop_length]
    cases hq : ys.drop xs.length with
    | nil =>
      have h2 : ys.length - xs.length = 0 := by
        have := congrArg List.length hq
        simpa using this
      have h3 : ¬(xs.length < ys.length) := by omega
      rw [show lexLt ([] : List T) [] = false from rfl]
      exact (decide_eq_false h3).symm
    | cons z zs =>
      have h2 : xs.length < ys.length := by
        have := congrArg List.length hq
        simp at this
        omega
      rw [show lexLt ([] : List T) (z :: zs) = true from rfl]
      exact (decide_eq_true h2).symm
  · rw [Nat.min_eq_right h, List.drop_length]
    have h3 : ¬(xs.length < ys.length) := by omega
    rw [lexLt_nil_right]
    exact (decide_eq_false h3).symm

theorem ltGo_spec [LinearOrder T] {a b : CircularList T} {ra rb : List Nat}
    (hra : Ring a ra) (hrb : Ring b rb) :
    ∀ (k m : Nat), m + k = min a.count b.count →
      ltGo a b k ⟨some (ra.getD (m % ra.length) 0), a.head⟩
        ⟨some (rb.getD (m % rb.length) 0), b.head⟩ =
      .ok (lexLt ((toList a).drop m) ((toList b).drop m))
  | 0, m, hmk => by
    have hla : (toList a).length = a.count := by
      rw [toList_length hra, ← hra.2.1]
    have hlb : (toList b).length = b.count := by
      rw [toList_length hrb, ← hrb.2.1]
    have h1 : lexLt ((toList a).drop m) ((toList b).drop m) =
        decide (a.count < b.count) := by
      rw [show m = min (toList a).length (toList b).length by
        rw [hla, hlb]; omega]
      rw [lexLt_drop_min, hla, hlb]
    rw [h1]
    rfl
  | k + 1, m, hmk => by
    have hms : m < ra.length := by rw [← hra.2.1]; omega
    have hmb : m < rb.length := by rw [← hrb.2.1]; omega
    have hmma : m % ra.length = m := Nat.mod_eq_of_lt hms
    have hmmb : m % rb.length = m := Nat.mod_eq_of_lt hmb
    have hna : (nd a (ra.getD m 0)).next = ra.getD ((m + 1) % ra.length) 0 :=
      ring_next_getD hra.2.2 m hms
    have hnb : (nd b (rb.getD m 0)).next = rb.getD ((m + 1) % rb.length) 0 :=
      ring_next_getD hrb.2.2 m hmb
    have hstep : ltGo a b (k + 1)
        ⟨some (ra.getD (m % ra.length) 0), a.head⟩
        ⟨some (rb.getD (m % rb.length) 0), b.head⟩ =
        (if (nd a (ra.getD (m % ra.length) 0)).data <
            (nd b (rb.getD (m % rb.length) 0)).data then .ok true
         else if (nd b (rb.getD (m % rb.length) 0)).data <
            (nd a (ra.getD (m % ra.length) 0)).data then .ok false
         else ltGo a b k
           ⟨some (nd a (ra.getD (m % ra.length) 0)).next, a.head⟩
           ⟨some (nd b (rb.getD (m % rb.length) 0)).next, b.head⟩) := rfl
    have hlex : lexLt ((toList a).drop m) ((toList b).drop m) =
        (if (nd a (ra.getD m 0)).data < (nd b (rb.getD m 0)).data then true
         else if (nd b (rb.getD m 0)).data < (nd a (ra.getD m 0)).data
           then false
         else lexLt ((toList a).drop (m + 1)) ((toList b).drop (m + 1))) := by
      rw [drop_toList_cons hra hms, drop_toList_cons hrb hmb,
        toList_getD hra hms, toList_getD hrb hmb]
      rfl
    rw [hstep, hmma, hmmb, hlex]
    rcases lt_trichotomy (nd a (ra.getD m 0)).data
      (nd b (rb.getD m 0)).data with hv | hv | hv
    · rw [if_pos hv, if_pos hv]
    · rw [if_neg (by rw [hv]; exact lt_irrefl _),
        if_neg (by rw [hv]; exact lt_irrefl _),
        if_neg (by rw [hv]; exact lt_irrefl _),
        if_neg (by rw [hv]; exact lt_irrefl _),
        hna, hnb, ltGo_spec hra hrb k (m + 1) (by omega)]
    · rw [if_neg (not_lt_of_lt hv), if_pos hv, if_neg (not_lt_of_lt hv),
        if_pos hv]

theorem listLt_spec [LinearOrder T] {a b : CircularList T} {ra rb : List Nat}
    (hra : Ring a ra) (hrb : Ring b rb) :
    listLt a b = .ok (lexLt (toList a) (toList b)) := by
  by_cases h0 : a.count = 0
  · have hra0 : ra = [] :=
      List.length_eq_zero.mp (by rw [← hra.2.1, h0])
    have ha : toList a = [] := toList_empty_ring (hra0 ▸ hra)
    by_cases h1 : b.count = 0
    · have hrb0 : rb = [] :=
        List.length_eq_zero.mp (by rw [← hrb.2.1, h1])
      have hb : toList b = [] := toList_empty_ring (hrb0 ▸ hrb)
      rw [listLt, if_pos ⟨h0, h1⟩, ha, hb]
      rfl
    · have hrbne : rb ≠ [] := by
        intro h
        rw [h] at hrb
        exact h1 (by simpa using hrb.2.1)
      obtain ⟨y, ys, rfl⟩ : ∃ y ys, rb = y :: ys := by
        cases rb with
        | nil => exact absurd rfl hrbne
        | cons y ys => exact ⟨y, ys, rfl⟩
      have hb : toList b = (nd b y).data ::
          (ys.map fun i => (ndL b.nodes i).data) := by
        rw [toList_eq hrb]
        rfl
      rw [listLt, if_neg (by intro h; exact h1 h.2), if_pos h0, ha, hb]
      rfl
  · by_cases h1 : b.count = 0
    · have hrb0 : rb = [] :=
        List.length_eq_zero.mp (by rw [← hrb.2.1, h1])
      have hb : toList b = [] := toList_empty_ring (hrb0 ▸ hrb)
      have hane : toList a ≠ [] := by
        intro h
        have h2 := congrArg List.length h
        rw [toList_length hra, ← hra.2.1] at h2
        simp at h2
        exact h0 h2
      obtain ⟨x, xs, hxs⟩ : ∃ x xs, toList a = x :: xs := by
        cases hq : toList a with
        | nil => exact absurd hq hane
        | cons x xs => exact ⟨x, xs, rfl⟩
      rw [listLt, if_neg (by intro h; exact h0 h.1), if_neg h0, if_pos h1,
        hb, hxs]
      rfl
    · have hnea : 0 < ra.length := by rw [← hra.2.1]; omega
      have hneb : 0 < rb.length := by rw [← hrb.2.1]; omega
      have h2 : listLt a b =
          ltGo a b (min a.count b.count) (beginIt a) (beginIt b) := by
        rw [listLt, if_neg (by intro h; exact h0 h.1), if_neg h0, if_neg h1]
      rw [h2, beginIt_getD hra hnea, beginIt_getD hrb hneb,
        ltGo_spec hra hrb (min a.count b.count) 0 (by omega),
        List.drop_zero, List.drop_zero]

theorem emptyRing : Ring (⟨[], none, 0⟩ : CircularList T) [] :=
  ⟨rfl, rfl, by simp, by simp, by simp, Or.inl rfl⟩

theorem copyGo_spec {other : CircularList T} {r : List Nat}
    (hr : Ring other r) :
    ∀ (f m : Nat), f + m = r.length → m < r.length →
      ∀ (acc : CircularList T) (racc : List Nat), Ring acc racc →
        toList acc = (toList other).take m →
        ∃ res r2, copyGo other f (r.getD m 0) m acc = .ok res ∧
          Ring res r2 ∧ toList res = toList other := by
  intro f
  induction f with
  | zero =>
    intro m hfm hm
    omega
  | succ f1 ih =>
    intro m hfm hm acc racc hacc htl
    obtain ⟨x, hx⟩ : ∃ x, r.head? = some x := by
      cases r with
      | nil => simp at hm
      | cons y ys => exact ⟨y, rfl⟩
    have hhd : hd other = r.getD 0 0 := by
      rw [hd, hr.1, hx]
      exact (head_getD_zero hx).symm
    have hcnt : other.count = r.length := hr.2.1
    have hml : m < (toList other).length := by
      rw [toList_length hr]
      exact hm
    have hnxt : (nd other (r.getD m 0)).next =
        r.getD ((m + 1) % r.length) 0 := ring_next_getD hr.2.2 m hm
    have htake : (toList other).take (m + 1) =
        (toList other).take m ++ [(nd other (r.getD m 0)).data] := by
      rw [List.take_succ]
      have hx2 : (toList other)[m] = (nd other (r.getD m 0)).data := by
        have h2 := toList_getD hr hm
        rw [List.getD_eq_getElem?_getD, List.getElem?_eq_getElem hml] at h2
        simpa using h2
      rw [List.getElem?_eq_getElem hml, hx2]
      rfl
    have hstep : copyGo other (f1 + 1) (r.getD m 0) m acc =
        (if other.count < m + 1 then
          .error (.runtimeErr .copyCorrupt)
         else if (nd other (r.getD m 0)).next = hd other then
           (if m + 1 ≠ other.count then
             .error (.runtimeErr .copyCountMismatch)
            else .ok (push_back acc (nd other (r.getD m 0)).data))
         else copyGo other f1 ((nd other (r.getD m 0)).next)
           (m + 1) (push_back acc (nd other (r.getD m 0)).data)) := rfl
    rw [hstep, if_neg (by omega)]
    by_cases hlast : m + 1 = r.length
    · have hcur1 : (nd other (r.getD m 0)).next = hd other := by
        rw [hnxt, hhd, hlast, Nat.mod_self]
      rw [if_pos hcur1, if_neg (by omega)]
      refine ⟨push_back acc (nd other (r.getD m 0)).data, _,
        rfl, Ring_push_back hacc _, ?_⟩
      rw [toList_push_back hacc, htl, ← htake, hlast,
        ← toList_length hr, List.take_length]
    · have hm2 : m + 1 < r.length := by omega
      have hcur1 : (nd other (r.getD m 0)).next ≠ hd other := by
        rw [hnxt, hhd, Nat.mod_eq_of_lt hm2]
        intro he
        have h3 := getD_inj hr.2.2.2.1 hm2 (by omega) he
        omega
      rw [if_neg hcur1]
      have hrec := ih (m + 1) (by omega) hm2
        (push_back acc (nd other (r.getD m 0)).data) _
        (Ring_push_back hacc _)
        (by rw [toList_push_back hacc, htl, htake])
      obtain ⟨res, r2, hgo, hring, htol⟩ := hrec
      refine ⟨res, r2, ?_, hring, htol⟩
      rw [← hgo, hnxt, Nat.mod_eq_of_lt hm2]

theorem copyCtor_spec {other : CircularList T} {r : List Nat}
    (hr : Ring other r) :
    ∃ res r2, copyCtor other = .ok res ∧ Ring res r2 ∧
      toList res = toList other := by
  by_cases h0 : other.count = 0
  · have hr0 : r = [] :=
      List.length_eq_zero.mp (by rw [← hr.2.1, h0])
    have hrempty : Ring other [] := by rw [← hr0]; exact hr
    refine ⟨⟨[], none, 0⟩, [], by rw [copyCtor, if_pos h0], emptyRing, ?_⟩
    rw [toList_empty_ring hrempty]
    rfl
  · obtain ⟨x, hx⟩ : ∃ x, r.head? = some x := by
      cases r with
      | nil => exact absurd (by simpa using hr.2.1) h0
      | cons y ys => exact ⟨y, rfl⟩
    have hh1 : other.head = some x := by rw [hr.1, hx]
    have hm0 : 0 < r.length := by rw [← hr.2.1]; omega
    have h1 : copyCtor other = copyGo other other.count x 0 ⟨[], none, 0⟩ := by
      rw [copyCtor, if_neg h0, hh1]
    obtain ⟨res, r2, hgo, hring, htol⟩ := copyGo_spec hr other.count 0
      (by rw [hr.2.1]; omega) hm0 ⟨[], none, 0⟩ [] emptyRing
      (by rw [toList_empty_ring emptyRing]; rfl)
    refine ⟨res, r2, ?_, hring, htol⟩
    rw [h1, ← hgo, head_getD_zero hx]

theorem nodes_ext {ns1 ns2 : List (Node T)} (hlen : ns1.length = ns2.length)
    (h : ∀ k, ndL ns1 k = ndL ns2 k) : ns1 = ns2 := by
  apply List.ext_getElem?
  intro n
  by_cases hn : n < ns1.length
  · rw [List.getElem?_eq_getElem hn, List.getElem?_eq_getElem (hlen ▸ hn)]
    have h2 := h n
    rw [ndL, ndL, List.getD_eq_getElem?_getD, List.getD_eq_getElem?_getD,
      List.getElem?_eq_getElem hn, List.getElem?_eq_getElem (hlen ▸ hn)]
      at h2
    simpa using h2
  · rw [List.getElem?_eq_none (by omega),
      List.getElem?_eq_none (by omega : ns2.length ≤ n)]

theorem CL_ext {x y : CircularList T} (h1 : x.nodes = y.nodes)
    (h2 : x.head = y.head) (h3 : x.count = y.count) : x = y := by
  cases x
  cases y
  simp_all

theorem insert_nodes_desc {l : CircularList T} (h0 cur : Nat)
    (hh : l.head = some h0) (pos : Iter) (hpos : pos.node = some cur)
    (hcb : cur < l.nodes.length)
    (hpb : (ndL l.nodes cur).prev < l.nodes.length) (v : T) :
    (∀ k, ndL (insert l pos v).1.nodes k =
      spliceDesc l.nodes cur ((ndL l.nodes cur).prev) v k) ∧
    (insert l pos v).1.nodes.length = l.nodes.length + 1 ∧
    (insert l pos v).1.head =
      (if cur = h0 then some l.nodes.length else some h0) ∧
    (insert l pos v).1.count = l.count + 1 := by
  have hins : insert l pos v =
      (⟨setPrev (setNext (setPrev (setNext
          (l.nodes ++ [⟨v, l.nodes.length, l.nodes.length⟩])
          l.nodes.length cur)
          l.nodes.length ((nd l cur).prev))
          ((nd l cur).prev) l.nodes.length)
          cur l.nodes.length,
        if cur = h0 then some l.nodes.length else some h0,
        l.count + 1⟩,
       ⟨some l.nodes.length,
        if cur = h0 then some l.nodes.length else some h0⟩) := by
    rw [show insert l pos v = insert l ⟨some cur, pos.head⟩ v by
      rw [← hpos]]
    simp only [insert, hh]
  refine ⟨?_, ?_, ?_, ?_⟩
  · intro k
    rw [hins]
    exact ndL_insertWrites l.nodes cur _ v hcb hpb k
  · rw [hins]
    show (setPrev (setNext (setPrev (setNext _ _ _) _ _) _ _) _ _).length = _
    rw [length_setPrev, length_setNext, length_setPrev, length_setNext]
    simp
  · rw [hins]
  · rw [hins]

/-- Inserting before the current head produces literally the same list as
`push_front`: same arena, same head, same count. -/
theorem insert_at_head_eq_push_front {l : CircularList T} {r : List Nat}
    (hr : Ring l r) (h0 : Nat) (hh : l.head = some h0) (pos : Iter)
    (hpos : pos.node = some h0) (v : T) :
    (insert l pos v).1 = push_front l v := by
  obtain ⟨rest, rfl⟩ : ∃ rest, r = h0 :: rest := by
    have hh2 : r.head? = some h0 := by rw [← hr.1]; exact hh
    cases r with
    | nil => simp at hh2
    | cons x xs =>
      refine ⟨xs, ?_⟩
      have : x = h0 := by simpa using hh2
      rw [this]
  have hcb : h0 < l.nodes.length := hr.2.2.1 h0 (List.mem_cons_self h0 rest)
  have hpa : (ndL l.nodes h0).prev = (h0 :: rest).getLastD 0 := by
    rcases hr.2.2.2.2.2 with h | hw
    · cases h
    · exact hw.2
  have hpb : (ndL l.nodes h0).prev < l.nodes.length := by
    rw [hpa]
    exact hr.2.2.1 _ (getLastD_mem (List.cons_ne_nil _ _) 0)
  obtain ⟨hdesc, hlen, hhead, hcnt⟩ :=
    insert_nodes_desc h0 h0 hh pos hpos hcb hpb v
  have hpf := push_front_eq hr v
  refine CL_ext ?_ ?_ ?_
  · refine nodes_ext ?_ ?_
    · rw [hlen, hpf]
      show _ = (push_back l v).nodes.length
      rw [push_back_nodes_len]
    · intro k
      rw [hdesc k, hpf]
      show _ = ndL (push_back l v).nodes k
      rw [push_back_nodes_desc l v h0 hh hcb hpb k]
  · rw [hhead, if_pos rfl, hpf]
  · rw [hcnt, hpf]
    show l.count + 1 = (push_back l v).count
    rw [push_back_count]

theorem toList_pop_front {l : CircularList T} {a : Nat} {rest : List Nat}
    (hr : Ring l (a :: rest)) :
    ∃ l', pop_front l = .ok l' ∧ Ring l' rest ∧
      toList l' = (toList l).tail := by
  obtain ⟨l', h1, h2, h3, h4⟩ := pop_front_ok hr
  refine ⟨l', h1, h2, ?_⟩
  rw [toList_eq h2, toList_eq hr, List.map_cons, List.tail_cons]
  exact List.map_congr_left fun i _ => h4 i

theorem toList_pop_back {l : CircularList T} {a : Nat} {rest : List Nat}
    (hr : Ring l (a :: rest)) :
    ∃ l', pop_back l = .ok l' ∧ Ring l' ((a :: rest).dropLast) ∧
      toList l' = (toList l).dropLast := by
  obtain ⟨l', h1, h2, h3, h4⟩ := pop_back_ok hr
  refine ⟨l', h1, h2, ?_⟩
  rw [toList_eq h2, toList_eq hr, List.map_dropLast]
  exact congrArg List.dropLast (List.map_congr_left fun i _ => h4 i)

theorem toList_insert_at {l : CircularList T} {r : List Nat}
    (hr : Ring l r) (k : Nat) (hk : k < r.length) (pos : Iter)
    (hpos : pos.node = some (r.getD k 0)) (v : T) :
    toList (insert l pos v).1 =
      (toList l).take k ++ v :: (toList l).drop k := by
  obtain ⟨hring, hit, hlen, hdata, hhead, hcnt⟩ :=
    insert_at hr k hk pos hpos v
  rw [toList_eq hring, toList_eq hr, List.map_append, List.map_cons,
    List.map_take, List.map_drop]
  have hmapr : r.map (fun i => (ndL (insert l pos v).1.nodes i).data) =
      r.map (fun i => (ndL l.nodes i).data) :=
    List.map_congr_left fun i hi => by
      rw [hdata i, if_neg (Nat.ne_of_lt (hr.2.2.1 i hi))]
  rw [hmapr, hdata l.nodes.length, if_pos rfl]

theorem toList_erase_at {l : CircularList T} {r : List Nat}
    (hr : Ring l r) (k : Nat) (hk : k < r.length) (pos : Iter)
    (hpos : pos.node = some (r.getD k 0)) :
    ∃ l' it, erase l pos = .ok (l', it) ∧
      toList l' = (toList l).take k ++ (toList l).drop (k + 1) := by
  obtain ⟨l', it, h1, h2, h3, h4, h5, h6, h7, h8⟩ :=
    erase_at hr k hk pos hpos
  refine ⟨l', it, h1, ?_⟩
  rw [toList_eq h2, toList_eq hr, List.map_append, List.map_take,
    List.map_drop]
  have hmapr : r.map (fun i => (ndL l'.nodes i).data) =
      r.map (fun i => (ndL l.nodes i).data) :=
    List.map_congr_left fun i _ => h4 i
  rw [hmapr]

theorem lexLt_self_append [LinearOrder T] :
    ∀ (xs : List T) (y : T) (ys : List T), lexLt xs (xs ++ y :: ys) = true
  | [], _, _ => rfl
  | x :: xs, y, ys => by
    show (if x < x then true else if x < x then false
      else lexLt xs (xs ++ y :: ys)) = true
    rw [if_neg (lt_irrefl x), if_neg (lt_irrefl x)]
    exact lexLt_self_append xs y ys

theorem lexLt_irrefl [LinearOrder T] : ∀ xs : List T, lexLt xs xs = false
  | [] => rfl
  | x :: xs => by
    show (if x < x then true else if x < x then false
      else lexLt xs xs) = false
    rw [if_neg (lt_irrefl x), if_neg (lt_irrefl x)]
    exact lexLt_irrefl xs

theorem ring0 : Ring (ofL ([] : List Int)) [] := emptyRing

theorem ring1 (x : Int) : Ring (ofL [x]) [0] :=
  Ring_push_back emptyRing x

theorem ring2 (x y : Int) : Ring (ofL [x, y]) [0, 1] :=
  Ring_push_back (ring1 x) y

theorem ring3 (x y z : Int) : Ring (ofL [x, y, z]) [0, 1, 2] :=
  Ring_push_back (ring2 x y) z

/-- C1: every public operation preserves the ring invariants.  A list
satisfying the representation predicate `Ring` satisfies the section-3
invariants (`Invariants`), and each state-producing operation maps a
represented list to a represented list, with iteration order (`toList`)
transformed exactly as front-to-back insertion order dictates: `push_back`
appends, `push_front` prepends, the pops drop one end, `insert`/`erase`
splice at the position, `clear`/`assign` rebuild, and `swap`, the moves and
the copy transfer or duplicate the ring whole. -/
theorem C1_invariants_preserved (l : CircularList T) (r : List Nat) (v : T)
    (hr : Ring l r) :
    Invariants l ∧
    (Ring (push_back l v) (r ++ [l.nodes.length]) ∧
      toList (push_back l v) = toList l ++ [v]) ∧
    (Ring (push_front l v) (l.nodes.length :: r) ∧
      toList (push_front l v) = v :: toList l) ∧
    (∀ a rest, r = a :: rest → ∃ l', pop_front l = .ok l' ∧
      Ring l' rest ∧ toList l' = (toList l).tail) ∧
    (∀ a rest, r = a :: rest → ∃ l', pop_back l = .ok l' ∧
      Ring l' ((a :: rest).dropLast) ∧ toList l' = (toList l).dropLast) ∧
    (∀ (pos : Iter) k, k < r.length → pos.node = some (r.getD k 0) →
      Ring (insert l pos v).1 (r.take k ++ l.nodes.length :: r.drop k) ∧
      toList (insert l pos v).1 =
        (toList l).take k ++ v :: (toList l).drop k) ∧
    (∀ pos : Iter, pos.node = none →
      Ring (insert l pos v).1 (r ++ [l.nodes.length])) ∧
    (∀ (pos : Iter) k, k < r.length → pos.node = some (r.getD k 0) →
      ∃ l' it, erase l pos = .ok (l', it) ∧
        Ring l' (r.take k ++ r.drop (k + 1)) ∧
        toList l' = (toList l).take k ++ (toList l).drop (k + 1)) ∧
    Ring (clear l) [] ∧
    (∀ n, ∃ r2, Ring (assign l n v) r2 ∧
      toList (assign l n v) = List.replicate n v) ∧
    (∀ (l2 : CircularList T) (r2 : List Nat), Ring l2 r2 →
      Ring (swap l l2).1 r2 ∧ Ring (swap l l2).2 r) ∧
    Ring (moveCtor l).1 r ∧ Ring (moveCtor l).2 [] ∧
    (∀ dst : CircularList T, Ring (moveAssign dst l).1 r ∧
      Ring (moveAssign dst l).2 []) ∧
    Ring (moveAssignSelf l) r ∧
    (∃ res r2, copyCtor l = .ok res ∧ Ring res r2 ∧
      toList res = toList l) := by
  refine ⟨Ring_invariants hr, ⟨Ring_push_back hr v, toList_push_back hr v⟩,
    ⟨Ring_push_front hr v, toList_push_front hr v⟩, ?_, ?_, ?_, ?_, ?_,
    Ring_clear hr, fun n => assign_spec hr n v, ?_, ?_, ?_, ?_, hr,
    copyCtor_spec hr⟩
  · intro a rest he
    exact toList_pop_front (he ▸ hr)
  · intro a rest he
    exact toList_pop_back (he ▸ hr)
  · intro pos k hk hpos
    exact ⟨(insert_at hr k hk pos hpos v).1,
      toList_insert_at hr k hk pos hpos v⟩
  · intro pos hpos
    have h1 : insert l pos v = (push_back l v,
        (⟨(push_back l v).head.map
          (fun h => (ndL (push_back l v).nodes h).prev),
         (push_back l v).head⟩ : Iter)) := by
      cases hq : l.head with
      | none => rw [show insert l pos v =
          insert l ⟨pos.node, pos.head⟩ v by rfl, hpos]
                simp only [insert, hq]
      | some h0 => rw [show insert l pos v =
          insert l ⟨pos.node, pos.head⟩ v by rfl, hpos]
                   simp only [insert, hq]
    rw [h1]
    exact Ring_push_back hr v
  · intro pos k hk hpos
    obtain ⟨l', it, h1, h2, _, h4, _⟩ := erase_at hr k hk pos hpos
    obtain ⟨l2, it2, h5, h6⟩ := toList_erase_at hr k hk pos hpos
    have h7 : l' = l2 := by
      rw [h1] at h5
      injection h5 with h8
      exact congrArg Prod.fst h8
    exact ⟨l', it, h1, h2, by rw [h7]; exact h6⟩
  · intro l2 r2 hr2
    exact ⟨hr2, hr⟩
  · exact hr
  · exact ⟨rfl, rfl, by simp, by simp, by simp, Or.inl rfl⟩
  · intro dst
    exact ⟨hr, ⟨rfl, rfl, by simp, by simp, by simp, Or.inl rfl⟩⟩

theorem C1_witness :
    Invariants (ofL ([5, 7] : List Int)) ∧
    toList (push_back (ofL ([5, 7] : List Int)) 9) =
      toList (ofL ([5, 7] : List Int)) ++ [9] :=
  ⟨(C1_invariants_preserved (ofL ([5, 7] : List Int)) [0, 1] 9
      (ring2 5 7)).1,
   (C1_invariants_preserved (ofL ([5, 7] : List Int)) [0, 1] 9
      (ring2 5 7)).2.1.2⟩

/-- C2: in a non-empty list the ring is closed under `operator++`:
incrementing an iterator on the logical back node (`head->prev`) yields the
head node (never the end sentinel); `begin()` incremented `size()` times is
`begin()` again; and no iterator reached from `begin()` by repeated
increments ever compares equal to `end()`. -/
theorem C2_ring_iteration (l : CircularList T) (r : List Nat)
    (hr : Ring l r) (hne : l.count ≠ 0) :
    (∀ it : Iter, it.node = some ((nd l (hd l)).prev) →
      iterInc l it = .ok ⟨l.head, it.head⟩) ∧
    iterIncN l l.count (beginIt l) = .ok (beginIt l) ∧
    (∀ (m : Nat) (it : Iter), iterIncN l m (beginIt l) = .ok it →
      iterEq it (endIt l) = false) := by
  obtain ⟨h0, rest, rfl⟩ : ∃ h0 rest, r = h0 :: rest := by
    cases r with
    | nil => exact absurd (by simpa using hr.2.1) hne
    | cons x xs => exact ⟨x, xs, rfl⟩
  have hh1 : l.head = some h0 := by simpa using hr.1
  have hhd : hd l = h0 := by rw [hd, hh1]; rfl
  have hlen : 0 < (h0 :: rest).length := by simp
  have hpa : (ndL l.nodes h0).prev = (h0 :: rest).getLastD 0 := by
    rcases hr.2.2.2.2.2 with h | hw
    · cases h
    · exact hw.2
  have hwrap1 : (ndL l.nodes ((h0 :: rest).getLastD 0)).next = h0 := by
    rcases hr.2.2.2.2.2 with h | hw
    · cases h
    · exact hw.1
  refine ⟨?_, ?_, ?_⟩
  · intro it hit
    have hback : (nd l ((nd l (hd l)).prev)).next = h0 := by
      rw [hhd, show (nd l h0).prev = (ndL l.nodes h0).prev from rfl, hpa]
      exact hwrap1
    simp only [iterInc, hit]
    rw [hback, hh1]
  · rw [beginIt_getD hr hlen, iterIncN_getD hr hlen l.count 0 l.head]
    have h1 : (0 + l.count) % (h0 :: rest).length =
        0 % (h0 :: rest).length := by
      rw [Nat.zero_add, hr.2.1, Nat.mod_self, Nat.zero_mod]
    rw [h1]
  · intro m it hit
    rw [beginIt_getD hr hlen, iterIncN_getD hr hlen m 0 l.head] at hit
    have h2 : it = ⟨some ((h0 :: rest).getD
        ((0 + m) % (h0 :: rest).length) 0), l.head⟩ := by
      injection hit with h3
      exact h3.symm
    rw [h2, iterEq, endIt]
    rfl

theorem C2_witness :
    iterIncN (ofL ([1, 2, 3] : List Int)) (ofL ([1, 2, 3] : List Int)).count
      (beginIt (ofL ([1, 2, 3] : List Int))) =
      .ok (beginIt (ofL ([1, 2, 3] : List Int))) :=
  (C2_ring_iteration (ofL ([1, 2, 3] : List Int)) [0, 1, 2]
    (ring3 1 2 3) (by decide)).2.1

/-- C3: on an empty list, `front`, `back`, `pop_front`, `pop_back` and
`erase` (for any iterator argument) all signal the empty-container violation
(`std::out_of_range`, thrown before any mutation, so the list stays
unchanged and empty). -/
theorem C3_empty_operations (l : CircularList T) (h : l.count = 0) :
    front l = .error (.outOfRange .frontEmpty) ∧
    back l = .error (.outOfRange .backEmpty) ∧
    pop_front l = .error (.outOfRange .popFrontEmpty) ∧
    pop_back l = .error (.outOfRange .popBackEmpty) ∧
    (∀ pos : Iter, erase l pos = .error (.outOfRange .eraseEmpty)) := by
  refine ⟨?_, ?_, ?_, ?_, fun pos => ?_⟩ <;>
    simp [front, back, pop_front, pop_back, erase, h]

theorem C3_witness :
    front (emptyList : CircularList Int) =
      .error (.outOfRange .frontEmpty) ∧
    back (emptyList : CircularList Int) =
      .error (.outOfRange .backEmpty) ∧
    pop_front (emptyList : CircularList Int) =
      .error (.outOfRange .popFrontEmpty) ∧
    pop_back (emptyList : CircularList Int) =
      .error (.outOfRange .popBackEmpty) ∧
    erase (emptyList : CircularList Int) (endIt (emptyList : CircularList Int)) =
      .error (.outOfRange .eraseEmpty) := by
  have h := C3_empty_operations (emptyList : CircularList Int) rfl
  exact ⟨h.1, h.2.1, h.2.2.1, h.2.2.2.1, h.2.2.2.2 (endIt (emptyList : CircularList Int))⟩

/-- C4: `operator<` computes exactly the lexicographic order of the
front-to-back value sequences (`lexLt`, phrased as the specification words
it), and the derived operators are definitionally `a>b ≡ b<a`,
`a<=b ≡ !(b<a)`, `a>=b ≡ !(a<b)`; `lexLt` itself orders the empty sequence
strictly below any non-empty one, never below itself, and a sequence
strictly below any proper extension of itself. -/
theorem C4_lex_order [LinearOrder T] (a b : CircularList T)
    (ra rb : List Nat) (hra : Ring a ra) (hrb : Ring b rb) :
    listLt a b = .ok (lexLt (toList a) (toList b)) ∧
    listGt a b = listLt b a ∧
    listLe a b = (listLt b a).map (fun x => !x) ∧
    listGe a b = (listLt a b).map (fun x => !x) ∧
    lexLt ([] : List T) [] = false ∧
    (∀ (y : T) (ys : List T), lexLt [] (y :: ys) = true) ∧
    (∀ xs : List T, lexLt xs xs = false) ∧
    (∀ (xs : List T) (y : T) (ys : List T),
      lexLt xs (xs ++ y :: ys) = true) :=
  ⟨listLt_spec hra hrb, rfl, rfl, rfl, rfl, fun _ _ => rfl, lexLt_irrefl,
    lexLt_self_append⟩

theorem C4_witness :
    listLt (ofL ([] : List Int)) (ofL ([1] : List Int)) = .ok true ∧
    listLt (ofL ([1] : List Int)) (ofL ([1, 2] : List Int)) = .ok true ∧
    listLt (ofL ([1, 2] : List Int)) (ofL ([2] : List Int)) = .ok true := by
  refine ⟨?_, ?_, ?_⟩
  · rw [(C4_lex_order (ofL ([] : List Int)) (ofL ([1] : List Int)) [] [0]
      ring0 (ring1 1)).1]
    rfl
  · rw [(C4_lex_order (ofL ([1] : List Int)) (ofL ([1, 2] : List Int))
      [0] [0, 1] (ring1 1) (ring2 1 2)).1]
    rfl
  · rw [(C4_lex_order (ofL ([1, 2] : List Int)) (ofL ([2] : List Int))
      [0, 1] [0] (ring2 1 2) (ring1 2)).1]
    rfl

/-- C5: `operator==` returns true exactly when the two front-to-back value
sequences coincide (equal size and equal value at every position), and
`operator!=` is its boolean negation. -/
theorem C5_value_equality [DecidableEq T] (a b : CircularList T)
    (ra rb : List Nat) (hra : Ring a ra) (hrb : Ring b rb) :
    listEq a b = .ok (decide (toList a = toList b)) ∧
    listNe a b = .ok (!decide (toList a = toList b)) ∧
    (listEq a b = .ok true ↔ toList a = toList b) ∧
    (listNe a b = .ok true ↔ ¬(toList a = toList b)) := by
  have h1 := listEq_spec hra hrb
  have h2 := listNe_spec hra hrb
  refine ⟨h1, h2, ?_, ?_⟩
  · rw [h1]
    constructor
    · intro h3
      injection h3 with h4
      exact of_decide_eq_true h4
    · intro h3
      rw [decide_eq_true h3]
  · rw [h2]
    constructor
    · intro h3
      injection h3 with h4
      rw [Bool.not_eq_true'] at h4
      exact of_decide_eq_false h4
    · intro h3
      rw [decide_eq_false h3]
      rfl

theorem C5_witness :
    listEq (ofL ([1, 2] : List Int)) (ofL ([1, 2] : List Int)) = .ok true ∧
    listNe (ofL ([1, 2] : List Int)) (ofL ([2, 3] : List Int)) = .ok true := by
  constructor
  · rw [(C5_value_equality (ofL ([1, 2] : List Int))
      (ofL ([1, 2] : List Int)) [0, 1] [0, 1] (ring2 1 2) (ring2 1 2)).1]
    rfl
  · rw [(C5_value_equality (ofL ([1, 2] : List Int))
      (ofL ([2, 3] : List Int)) [0, 1] [0, 1] (ring2 1 2) (ring2 2 3)).2.1]
    rfl

/-- C6: `insert` at the end sentinel, or into a list with no head, behaves
exactly as `push_back`; inserting before the current head produces literally
the `push_front` result (head reassigned to the new node); and in every case
the returned iterator references the newly allocated node. -/
theorem C6_insert_semantics (l : CircularList T) (r : List Nat) (v : T)
    (hr : Ring l r) :
    (∀ pos : Iter, pos.node = none →
      (insert l pos v).1 = push_back l v ∧
      (insert l pos v).2.node = some l.nodes.length) ∧
    (l.head = none → ∀ pos : Iter,
      (insert l pos v).1 = push_back l v ∧
      (insert l pos v).2.node = some l.nodes.length) ∧
    (∀ (h0 : Nat) (pos : Iter), l.head = some h0 → pos.node = some h0 →
      (insert l pos v).1 = push_front l v ∧
      (insert l pos v).2.node = some l.nodes.length) ∧
    (∀ (pos : Iter) (k : Nat), k < r.length →
      pos.node = some (r.getD k 0) →
      (insert l pos v).2.node = some l.nodes.length) := by
  have hmap : (push_back l v).head.map
      (fun h => (ndL (push_back l v).nodes h).prev) = some l.nodes.length :=
    congrArg CircularList.head (push_front_eq hr v)
  have hend : ∀ pos : Iter, pos.node = none →
      (insert l pos v).1 = push_back l v ∧
      (insert l pos v).2.node = some l.nodes.length := by
    intro pos hpos
    have h1 : insert l pos v = (push_back l v,
        (⟨(push_back l v).head.map
          (fun h => (ndL (push_back l v).nodes h).prev),
         (push_back l v).head⟩ : Iter)) := by
      cases hq : l.head with
      | none =>
        rw [show insert l pos v = insert l ⟨pos.node, pos.head⟩ v by rfl,
          hpos]
        simp only [insert, hq]
      | some h0 =>
        rw [show insert l pos v = insert l ⟨pos.node, pos.head⟩ v by rfl,
          hpos]
        simp only [insert, hq]
    rw [h1]
    exact ⟨rfl, hmap⟩
  refine ⟨hend, ?_, ?_, ?_⟩
  · intro hq pos
    cases hpos : pos.node with
    | none => exact hend pos hpos
    | some cur =>
      have h1 : insert l pos v = (push_back l v,
          (⟨(push_back l v).head.map
            (fun h => (ndL (push_back l v).nodes h).prev),
           (push_back l v).head⟩ : Iter)) := by
        rw [show insert l pos v = insert l ⟨pos.node, pos.head⟩ v by rfl,
          hpos]
        simp only [insert, hq]
      rw [h1]
      exact ⟨rfl, hmap⟩
  · intro h0 pos hh hpos
    have hh2 : r.head? = some h0 := by rw [← hr.1]; exact hh
    obtain ⟨rest, rfl⟩ : ∃ rest, r = h0 :: rest := by
      cases r with
      | nil => simp at hh2
      | cons x xs =>
        refine ⟨xs, ?_⟩
        have : x = h0 := by simpa using hh2
        rw [this]
    have hk0 : (0 : Nat) < (h0 :: rest).length := by simp
    have hpos0 : pos.node = some ((h0 :: rest).getD 0 0) := hpos
    obtain ⟨_, hit, _, _, _, _⟩ := insert_at hr 0 hk0 pos hpos0 v
    refine ⟨insert_at_head_eq_push_front hr h0 hh pos hpos v, ?_⟩
    rw [hit]
  · intro pos k hk hpos
    obtain ⟨_, hit, _, _, _, _⟩ := insert_at hr k hk pos hpos v
    rw [hit]

theorem C6_witness :
    (insert (ofL ([4, 5] : List Int)) (endIt (ofL ([4, 5] : List Int)))
      6).1 = push_back (ofL ([4, 5] : List Int)) 6 ∧
    (insert (ofL ([4, 5] : List Int)) (beginIt (ofL ([4, 5] : List Int)))
      6).1 = push_front (ofL ([4, 5] : List Int)) 6 := by
  refine ⟨((C6_insert_semantics (ofL ([4, 5] : List Int)) [0, 1] 6
    (ring2 4 5)).1 (endIt (ofL ([4, 5] : List Int))) rfl).1, ?_⟩
  exact ((C6_insert_semantics (ofL ([4, 5] : List Int)) [0, 1] 6
    (ring2 4 5)).2.2.1 0 (beginIt (ofL ([4, 5] : List Int)))
    (by decide) (by decide)).1

/-- C7: `erase` at a dereferenceable position removes exactly that node
(value sequence loses exactly the `k`-th element), reassigns head to the
removed node's successor when the head was removed (head absent when it was
the only node), returns an iterator to the node that followed the removed
one in front-to-back order (end sentinel when none followed), and erasing
the last remaining element leaves an empty list with `begin() == end()`. -/
theorem C7_erase_semantics (l : CircularList T) (r : List Nat)
    (hr : Ring l r) (k : Nat) (hk : k < r.length) (pos : Iter)
    (hpos : pos.node = some (r.getD k 0)) :
    ∃ l' it, erase l pos = .ok (l', it) ∧
      Ring l' (r.take k ++ r.drop (k + 1)) ∧
      toList l' = (toList l).take k ++ (toList l).drop (k + 1) ∧
      l'.count = l.count - 1 ∧
      l'.head = (if r.length = 1 then none
        else if k = 0 then some (r.getD 1 0) else l.head) ∧
      it.node = (if k + 1 < r.length then some (r.getD (k + 1) 0)
        else none) ∧
      it.head = l.head ∧
      (r.length = 1 → l'.head = none ∧ l'.count = 0 ∧
        iterEq (beginIt l') (endIt l') = true) := by
  obtain ⟨l', it, h1, h2, h3, h4, h5, h6, h7, h8⟩ :=
    erase_at hr k hk pos hpos
  obtain ⟨l2, it2, h9, h10⟩ := toList_erase_at hr k hk pos hpos
  have hl2 : l' = l2 := by
    rw [h1] at h9
    injection h9 with h11
    exact congrArg Prod.fst h11
  refine ⟨l', it, h1, h2, by rw [hl2]; exact h10, h7, h8, h5, h6, ?_⟩
  intro hlen1
  have hh : l'.head = none := by rw [h8, if_pos hlen1]
  have hc : l'.count = 0 := by rw [h7, hr.2.1, hlen1]
  refine ⟨hh, hc, ?_⟩
  rw [beginIt, endIt, hh]
  rfl

theorem C7_witness : ∃ l' it,
    erase (ofL ([3, 4, 5] : List Int)) ⟨some 1, some 0⟩ = .ok (l', it) ∧
    toList l' = [3, 5] ∧ it.node = some 2 := by
  obtain ⟨l', it, h1, _, h3, _, _, h6, _, _⟩ :=
    C7_erase_semantics (ofL ([3, 4, 5] : List Int)) [0, 1, 2] (ring3 3 4 5)
      1 (by decide) ⟨some 1, some 0⟩ rfl
  refine ⟨l', it, h1, ?_, ?_⟩
  · rw [h3]
    rfl
  · rw [h6]
    rfl

/-- C8 counterexample: on an empty list, `erase` at the end sentinel signals
the empty-container violation (`std::out_of_range`), not the
invalid-position violation (`std::invalid_argument`) — the emptiness check
precedes the sentinel check. -/
theorem C8_counterexample :
    erase (emptyList : CircularList Int) (endIt (emptyList : CircularList Int)) =
      .error (.outOfRange .eraseEmpty) ∧
    erase (emptyList : CircularList Int) (endIt (emptyList : CircularList Int)) ≠
      .error (.invalidArgument .eraseInvalidIter) := by
  refine ⟨rfl, ?_⟩
  intro h
  rw [show erase (emptyList : CircularList Int) (endIt (emptyList : CircularList Int)) =
    .error (.outOfRange .eraseEmpty) from rfl] at h
  simp at h

/-- C8 (amended): on every NON-empty list, `erase` at the end sentinel
signals the invalid-position violation. -/
theorem C8_amended (l : CircularList T) (h : l.count ≠ 0) :
    erase l (endIt l) = .error (.invalidArgument .eraseInvalidIter) := by
  simp [erase, endIt, h]

theorem C8_witness :
    erase (ofL ([5] : List Int)) (endIt (ofL ([5] : List Int))) =
      .error (.invalidArgument .eraseInvalidIter) :=
  C8_amended (ofL ([5] : List Int)) (by decide)

/-- C9: move construction and move assignment leave the source empty (head
absent, count zero) while the destination holds exactly the source's prior
ring; self-move-assignment (the `this == &other` path) is a no-op. -/
theorem C9_move_semantics (l dst : CircularList T) :
    (moveCtor l).2.head = none ∧ (moveCtor l).2.count = 0 ∧
    (moveCtor l).1 = l ∧ toList (moveCtor l).1 = toList l ∧
    (moveAssign dst l).2.head = none ∧ (moveAssign dst l).2.count = 0 ∧
    (moveAssign dst l).1 = l ∧ toList (moveAssign dst l).1 = toList l ∧
    moveAssignSelf l = l :=
  ⟨rfl, rfl, rfl, rfl, rfl, rfl, rfl, rfl, rfl⟩

/-- C10: `push_front` is literally `push_back` followed by moving the head
designation to the freshly allocated node; the new node becomes the logical
front, the other elements keep their order, and the count grows by one. -/
theorem C10_push_front_equiv (l : CircularList T) (r : List Nat) (v : T)
    (hr : Ring l r) :
    push_front l v = { push_back l v with head := some l.nodes.length } ∧
    toList (push_front l v) = v :: toList l ∧
    toList (push_back l v) = toList l ++ [v] ∧
    (push_front l v).count = l.count + 1 ∧
    (push_front l v).head = some l.nodes.length := by
  have h1 := push_front_eq hr v
  refine ⟨?_, toList_push_front hr v, toList_push_back hr v, ?_, ?_⟩
  · rw [h1]
  · rw [h1]
    show (push_back l v).count = l.count + 1
    exact push_back_count l v
  · rw [h1]

theorem C10_witness :
    push_front (ofL ([1, 2] : List Int)) 7 =
      { push_back (ofL ([1, 2] : List Int)) 7 with
        head := some (ofL ([1, 2] : List Int)).nodes.length } ∧
    toList (push_front (ofL ([1, 2] : List Int)) 7) =
      7 :: toList (ofL ([1, 2] : List Int)) :=
  ⟨(C10_push_front_equiv (ofL ([1, 2] : List Int)) [0, 1] 7
      (ring2 1 2)).1,
   (C10_push_front_equiv (ofL ([1, 2] : List Int)) [0, 1] 7
      (ring2 1 2)).2.1⟩

end CircVerify
